import Mathlib

/-!
Verification of the book-scan ingestion pipeline (appka repository).

Python strings are modelled as lists of Unicode code points (`List Char`);
Python `dict` payloads that flow between the modules are modelled as fixed
records whose fields are the keys the source reads and writes.  External
collaborators (MongoDB, the filesystem, OCR, the interactive metadata form,
the platform Unicode tables used by `unicodedata`) are modelled as explicit
parameters of the embedded functions.  Timestamps (`datetime.now()`) are
modelled as naturals supplied by the caller.
-/

/-- Python `str` as a list of code points. -/
abbrev PyStr := List Char

namespace Appka

/- ----------------------------------------------------------------
   app/config.py
   ---------------------------------------------------------------- -/

/-- config.py: `BOOK_HASH_LENGTH = 12`. -/
def BOOK_HASH_LENGTH : Nat := 12

/-- config.py: `PAGE_NUMBER_PADDING = 4`. -/
def PAGE_NUMBER_PADDING : Nat := 4

/-- config.py: `NORMALIZE_HASH = True`. -/
def NORMALIZE_HASH : Bool := true

/-- config.py: `PAGE_TYPE_MAPPING`, the dict from one-letter page-type codes
to human labels, as an association list in source order. -/
def PAGE_TYPE_MAPPING : List (PyStr × PyStr) :=
  [("w".data, "Wstęp".data),
   ("s".data, "Strona Główna".data),
   ("m".data, "Mapa".data),
   ("i".data, "Ilustracja".data),
   ("t".data, "Tabela".data),
   ("c".data, "Okładka".data),
   ("g".data, "Grzbiet".data),
   ("o".data, "Obwoluta".data),
   ("e".data, "Wyklejka".data),
   ("b".data, "Pusta Strona".data)]

/-- Python `dict.get(k, default)` on an association list. -/
def dictGet (m : List (PyStr × PyStr)) (k : PyStr) (dflt : PyStr) : PyStr :=
  match m.find? (fun kv => kv.1 == k) with
  | some kv => kv.2
  | none => dflt

/- ----------------------------------------------------------------
   Python string primitives used by app/utils.py
   ---------------------------------------------------------------- -/

/-- Whitespace recognised by Python `str.strip()`: the codepoints for which
CPython's `Py_UNICODE_ISSPACE` holds — `\t\n\v\f\r`, the information
separators U+001C–U+001F, space, NEL, NBSP, and the Unicode space
separators. -/
def pyIsSpace (c : Char) : Bool :=
  c = ' ' || c = '\t' || c = '\n' || c = '\r' || c = Char.ofNat 11 || c = Char.ofNat 12 ||
  (Char.ofNat 28 ≤ c && c ≤ Char.ofNat 31) || c = Char.ofNat 133 || c = Char.ofNat 160 ||
  c = Char.ofNat 5760 || (Char.ofNat 8192 ≤ c && c ≤ Char.ofNat 8202) ||
  c = Char.ofNat 8232 || c = Char.ofNat 8233 || c = Char.ofNat 8239 ||
  c = Char.ofNat 8287 || c = Char.ofNat 12288

/-- Python `str.strip()`: drop leading and trailing whitespace. -/
def pyStrip (s : PyStr) : PyStr :=
  ((s.dropWhile pyIsSpace).reverse.dropWhile pyIsSpace).reverse

/-- Python `str.lower()` applied code-point-wise.  After diacritics removal
the strings are pure ASCII, where `Char.toLower` agrees with Python. -/
def pyLower (s : PyStr) : PyStr := s.map Char.toLower

/-- ASCII decimal digit: the ASCII restriction of the regex class `\d`.
(On a `str` pattern `\d` matches every Unicode decimal digit; the full
class enters the development below as the table parameter `dv`, the way
the Unicode normalization tables enter `remove_diacritics`.) -/
def isDigitChar (c : Char) : Bool := '0' ≤ c && c ≤ '9'

/- ----------------------------------------------------------------
   SHA-256 (hashlib.sha256) over byte lists
   ---------------------------------------------------------------- -/

/-- Truncate to a 32-bit word. -/
def w32 (n : Nat) : Nat := n % 4294967296

/-- Right rotation of a 32-bit word. -/
def rotr32 (x n : Nat) : Nat := w32 ((x >>> n) ||| (x <<< (32 - n)))

/-- SHA-256 round constants. -/
def sha256K : List Nat :=
  [1116352408, 1899447441, 3049323471, 3921009573, 961987163,
   1508970993, 2453635748, 2870763221, 3624381080, 310598401,
   607225278, 1426881987, 1925078388, 2162078206, 2614888103,
   3248222580, 3835390401, 4022224774, 264347078, 604807628,
   770255983, 1249150122, 1555081692, 1996064986, 2554220882,
   2821834349, 2952996808, 3210313671, 3336571891, 3584528711,
   113926993, 338241895, 666307205, 773529912, 1294757372,
   1396182291, 1695183700, 1986661051, 2177026350, 2456956037,
   2730485921, 2820302411, 3259730800, 3345764771, 3516065817,
   3600352804, 4094571909, 275423344, 430227734, 506948616,
   659060556, 883997877, 958139571, 1322822218, 1537002063,
   1747873779, 1955562222, 2024104815, 2227730452, 2361852424,
   2428436474, 2756734187, 3204031479, 3329325298]

/-- SHA-256 initial hash state. -/
def sha256H0 : List Nat :=
  [1779033703, 3144134277, 1013904242, 2773480762,
   1359893119, 2600822924, 528734635, 1541459225]

/-- Big-endian byte rendering of a value, `n` bytes wide. -/
def beBytes (n v : Nat) : List Nat :=
  (List.range n).map (fun i => (v >>> (8 * (n - 1 - i))) % 256)

/-- SHA-256 padding: append 0x80, zeros to 56 mod 64, and the 64-bit length. -/
def sha256Pad (msg : List Nat) : List Nat :=
  let k := (64 - ((msg.length + 9) % 64)) % 64
  msg ++ [0x80] ++ List.replicate k 0 ++ beBytes 8 (msg.length * 8)

/-- Split the padded message into 64-byte chunks. -/
def chunks64 (l : List Nat) : List (List Nat) :=
  (List.range (l.length / 64)).map (fun i => (l.drop (64 * i)).take 64)

/-- First sixteen 32-bit words of a chunk. -/
def chunkWords (chunk : List Nat) : List Nat :=
  (List.range 16).map (fun i =>
    (chunk.getD (4 * i) 0) <<< 24 ||| (chunk.getD (4 * i + 1) 0) <<< 16 |||
    (chunk.getD (4 * i + 2) 0) <<< 8 ||| chunk.getD (4 * i + 3) 0)

/-- SHA-256 message schedule: extend sixteen words to sixty-four. -/
def sha256Schedule (ws : List Nat) : List Nat :=
  (List.range 48).foldl
    (fun acc j =>
      let i := j + 16
      let s0 :=
        rotr32 (acc.getD (i - 15) 0) 7 ^^^ rotr32 (acc.getD (i - 15) 0) 18 ^^^
          (acc.getD (i - 15) 0) >>> 3
      let s1 :=
        rotr32 (acc.getD (i - 2) 0) 17 ^^^ rotr32 (acc.getD (i - 2) 0) 19 ^^^
          (acc.getD (i - 2) 0) >>> 10
      acc ++ [w32 (acc.getD (i - 16) 0 + s0 + acc.getD (i - 7) 0 + s1)])
    ws

/-- One SHA-256 compression round. -/
def sha256Round (st : List Nat) (wk : Nat × Nat) : List Nat :=
  let a := st.getD 0 0
  let b := st.getD 1 0
  let c := st.getD 2 0
  let d := st.getD 3 0
  let e := st.getD 4 0
  let f := st.getD 5 0
  let g := st.getD 6 0
  let h := st.getD 7 0
  let S1 := rotr32 e 6 ^^^ rotr32 e 11 ^^^ rotr32 e 25
  let ch := (e &&& f) ^^^ ((4294967295 - e) &&& g)
  let temp1 := w32 (h + S1 + ch + wk.2 + wk.1)
  let S0 := rotr32 a 2 ^^^ rotr32 a 13 ^^^ rotr32 a 22
  let maj := (a &&& b) ^^^ (a &&& c) ^^^ (b &&& c)
  let temp2 := w32 (S0 + maj)
  [w32 (temp1 + temp2), a, b, c, w32 (d + temp1), e, f, g]

/-- Compress one 64-byte chunk into the running hash state. -/
def sha256Compress (hs : List Nat) (chunk : List Nat) : List Nat :=
  let w := sha256Schedule (chunkWords chunk)
  let st := (w.zip sha256K).foldl sha256Round hs
  (hs.zip st).map (fun p => w32 (p.1 + p.2))

/-- Lowercase hex character of a value below 16. -/
def hexChar (n : Nat) : Char :=
  if n < 10 then Char.ofNat (48 + n) else Char.ofNat (87 + n)

/-- Eight lowercase hex characters of a 32-bit word. -/
def hex8 (v : Nat) : List Char :=
  (List.range 8).map (fun i => hexChar ((v >>> (4 * (7 - i))) % 16))

/-- `hashlib.sha256(bytes).hexdigest()`: full hex digest of a byte list. -/
def sha256Hex (msg : List Nat) : PyStr :=
  ((chunks64 (sha256Pad msg)).foldl sha256Compress sha256H0).flatMap hex8

/-- UTF-8 encoding of one code point (Python `str.encode("utf-8")`). -/
def utf8EncodeChar (c : Char) : List Nat :=
  let n := c.toNat
  if n < 0x80 then [n]
  else if n < 0x800 then [0xC0 ||| (n >>> 6), 0x80 ||| (n &&& 0x3F)]
  else if n < 0x10000 then
    [0xE0 ||| (n >>> 12), 0x80 ||| ((n >>> 6) &&& 0x3F), 0x80 ||| (n &&& 0x3F)]
  else
    [0xF0 ||| (n >>> 18), 0x80 ||| ((n >>> 12) &&& 0x3F),
     0x80 ||| ((n >>> 6) &&& 0x3F), 0x80 ||| (n &&& 0x3F)]

/-- UTF-8 encoding of a string. -/
def utf8Encode (s : PyStr) : List Nat := s.flatMap utf8EncodeChar

/- ----------------------------------------------------------------
   app/utils.py: remove_diacritics and generate_book_hash
   ---------------------------------------------------------------- -/

/-- utils.py `remove_diacritics`: NFD-normalise, drop combining marks, then
drop every remaining non-ASCII code point.  The platform Unicode tables
behind `unicodedata.normalize("NFD", ...)` and `unicodedata.combining` are
supplied as the parameters `nfd` and `combining`. -/
def remove_diacritics (nfd : PyStr → PyStr) (combining : Char → Bool)
    (text : PyStr) : PyStr :=
  (((nfd text).filter (fun c => !combining c)).filter (fun c => c.toNat < 128))

/-- utils.py `generate_book_hash`, inner `safe_get_and_normalize`: strip the
field, remove diacritics when `NORMALIZE_HASH` is set, then lowercase. -/
def safe_get_and_normalize (nfd : PyStr → PyStr) (combining : Char → Bool)
    (value : PyStr) : PyStr :=
  let v := pyStrip value
  let v := if NORMALIZE_HASH then remove_diacritics nfd combining v else v
  pyLower v

/-- Bibliographic metadata dict as the scanner assembles it (the `language`
key is popped by `upsert_book_and_scan` before it reaches a document, and is
never read by `generate_book_hash`, so it is not modelled). -/
structure BookMeta where
  title : PyStr
  authors : PyStr
  year : PyStr
  pub_place : PyStr
  publisher : PyStr
  num_pages : Option Nat
  notes : PyStr
  keywords : List PyStr
  maps_present : Bool
  illustrations_present : Bool
  tables_present : Bool
deriving DecidableEq

/-- utils.py `generate_book_hash`: join the four normalised fields with `|`,
SHA-256 the UTF-8 bytes, and keep the first `BOOK_HASH_LENGTH` hex chars. -/
def generate_book_hash (nfd : PyStr → PyStr) (combining : Char → Bool)
    (meta : BookMeta) : PyStr :=
  let norm := safe_get_and_normalize nfd combining
  let base :=
    norm meta.title ++ "|".data ++ norm meta.authors ++ "|".data ++
      norm meta.year ++ "|".data ++ norm meta.pub_place
  (sha256Hex (utf8Encode base)).take BOOK_HASH_LENGTH

/- ----------------------------------------------------------------
   app/utils.py: parse_scanned_page_filename
   (regex SCAN_FILENAME_REGEX from app/config.py, re.IGNORECASE)
   ---------------------------------------------------------------- -/

/-- Type-code character class `[wsimtcgoeb]` of `SCAN_FILENAME_REGEX`. -/
def typeCodes : List Char := ['w', 's', 'i', 'm', 't', 'c', 'g', 'o', 'e', 'b']

/-- Extension alternatives `jpg|jpeg|png|tiff?` of `SCAN_FILENAME_REGEX`. -/
def extOptions : List PyStr :=
  ["jpg".data, "jpeg".data, "png".data, "tif".data, "tiff".data]

/-- Python `str.zfill`: left-pad with zeros to the given width. -/
def pyZfill (w : Nat) (s : PyStr) : PyStr :=
  if w ≤ s.length then s else List.replicate (w - s.length) '0' ++ s

/-- Python `int(...)` on a run of decimal digits. -/
def natOfDigits (ds : PyStr) : Nat :=
  ds.foldl (fun a c => 10 * a + (c.toNat - 48)) 0

/-- utils.py roman-numeral lookup table (`roman_map`), keys 1 through 10. -/
def roman_map : List (Nat × PyStr) :=
  [(1, "i".data), (2, "ii".data), (3, "iii".data), (4, "iv".data), (5, "v".data),
   (6, "vi".data), (7, "vii".data), (8, "viii".data), (9, "ix".data), (10, "x".data)]

/-- `roman_map.get(n, "")`. -/
def romanGet (n : Nat) : PyStr :=
  match roman_map.find? (fun kv => kv.1 == n) with
  | some kv => kv.2
  | none => []

/-- Match the regex tail `[wsimtcgoeb]\d+\.(jpg|jpeg|png|tiff?)$` (with
`re.IGNORECASE`) against the characters following an underscore; return the
type-code character, the digit run, and the extension. -/
def matchTail (cs : PyStr) : Option (Char × PyStr × PyStr) :=
  match cs with
  | [] => none
  | t :: rest =>
    if Char.toLower t ∈ typeCodes ∧ rest.takeWhile isDigitChar ≠ [] ∧
        (rest.dropWhile isDigitChar).head? = some '.' ∧
        (rest.dropWhile isDigitChar).tail.map Char.toLower ∈ extOptions then
      some (t, rest.takeWhile isDigitChar, (rest.dropWhile isDigitChar).tail)
    else none

/-- Scan for the split point of `^(?P<alias'>.+?)_<tail>$`: the lazy `.+?`
takes the first underscore, preceded by a non-empty alias', whose tail
matches the rest of the pattern to the end of the name. -/
def findSplit (pre cs : PyStr) : Option (PyStr × Char × PyStr × PyStr) :=
  match cs with
  | [] => none
  | c :: rest =>
    if c = '_' ∧ pre ≠ [] ∧ (matchTail rest).isSome then
      (matchTail rest).map (fun out => (pre, out))
    else findSplit (pre ++ [c]) rest

/-- Dict returned by `parse_scanned_page_filename` on success. -/
structure ParsedScan where
  alias' : PyStr
  page_raw_number_str : PyStr
  page_type_short : PyStr
  page_type_full : PyStr
  page_number_numeric : Nat
  roman_number : PyStr
  original_extension : PyStr
deriving DecidableEq

/-- Descriptor assembled from the regex groups, exactly as the body of
`parse_scanned_page_filename` builds its result dict. -/
def mkDescriptor (alias' : PyStr) (t : Char) (ds e : PyStr) : ParsedScan :=
  let tl := Char.toLower t
  { alias' := alias'
    page_raw_number_str := tl :: pyZfill PAGE_NUMBER_PADDING ds
    page_type_short := [tl]
    page_type_full := dictGet PAGE_TYPE_MAPPING [tl] "Nieznany".data
    page_number_numeric := natOfDigits ds
    roman_number := if tl = 'w' then romanGet (natOfDigits ds) else []
    original_extension := '.' :: e.map Char.toLower }

/-- The ASCII reading of utils.py `parse_scanned_page_filename`: apply the
documented grammar of `SCAN_FILENAME_REGEX` with ASCII digits, ASCII
case-insensitivity, and `$` as strict end of input; on failure return
`none`, on success build the result dict from the named groups.  A newline
can occur in no group (the regex `.` does not match it), so names
containing one are rejected up front.  CPython's `re` accepts strictly
more names than this grammar — `$` also matches just before one trailing
newline, `\d` matches every Unicode decimal digit, and `re.IGNORECASE`
applies Unicode case folding — and the faithful embedding of the source
function under those semantics is `parse_scanned_page_filename_full`
below; the two parsers are compared by the C2 theorems. -/
def parse_scanned_page_filename (fname : PyStr) : Option ParsedScan :=
  if fname.any (· = '\n') then none
  else
    match findSplit [] fname with
    | none => none
    | some (alias', t, ds, e) => some (mkDescriptor alias' t ds e)

/-- A decomposition of a filename witnessing the grammar
`^(?P<alias'>.+?)_(?P<page_type>[wsimtcgoeb])(?P<page_num>\d+)\.(?P<ext>jpg|jpeg|png|tiff?)$`
under `re.IGNORECASE`. -/
def ValidName (fname alias' : PyStr) (t : Char) (ds e : PyStr) : Prop :=
  fname = alias' ++ '_' :: t :: ds ++ '.' :: e ∧
  alias' ≠ [] ∧ (∀ c ∈ alias', c ≠ '\n') ∧
  Char.toLower t ∈ typeCodes ∧
  ds ≠ [] ∧ (∀ c ∈ ds, isDigitChar c) ∧
  e.map Char.toLower ∈ extOptions

instance (fname alias' : PyStr) (t : Char) (ds e : PyStr) :
    Decidable (ValidName fname alias' t ds e) := by
  unfold ValidName; infer_instance

/- ----------------------------------------------------------------
   utils.py `parse_scanned_page_filename` under full CPython `re`
   semantics.  On a `str` pattern, `\d` matches every Unicode decimal
   digit, `re.IGNORECASE` matches literals up to Unicode case folding,
   and `$` matches at the end of the string or just before one newline
   at the end of the string.  The Unicode tables behind `\d`,
   IGNORECASE and `str.lower()` are external data and enter as
   parameters, the way the normalization tables enter
   `remove_diacritics`:
     `dv c`     - `some v` with the decimal value `v` of `c` when `c`
                  is a Unicode decimal digit (the value `int()` uses),
                  `none` otherwise;
     `fold c`   - the lowercase representative by which IGNORECASE
                  matches `c` against a lowercase literal (simple
                  lowercase plus sre's extended case equivalences);
     `slower c` - `str.lower()` of the one-character string `c`
                  (possibly several codepoints).
   ---------------------------------------------------------------- -/

/-- The regex class `\d`, read from the digit-value table `dv`. -/
def isUniDigit (dv : Char → Option Nat) (c : Char) : Bool := (dv c).isSome

/-- Python `int(...)` on a run of Unicode decimal digits: the base-10
value assembled from the digits' values in the table `dv`. -/
def natOfUniDigits (dv : Char → Option Nat) (ds : PyStr) : Nat :=
  ds.foldl (fun a c => 10 * a + (dv c).getD 0) 0

/-- `matchTail` under full `re` semantics: digits are the class `\d` of
the table `dv`, and the type code and extension letters match their
lowercase literals up to the IGNORECASE folding `fold`. -/
def matchTailFull (dv : Char → Option Nat) (fold : Char → Char) (cs : PyStr) :
    Option (Char × PyStr × PyStr) :=
  match cs with
  | [] => none
  | t :: rest =>
    if fold t ∈ typeCodes ∧ rest.takeWhile (isUniDigit dv) ≠ [] ∧
        (rest.dropWhile (isUniDigit dv)).head? = some '.' ∧
        (rest.dropWhile (isUniDigit dv)).tail.map fold ∈ extOptions then
      some (t, rest.takeWhile (isUniDigit dv), (rest.dropWhile (isUniDigit dv)).tail)
    else none

/-- `findSplit` under full `re` semantics. -/
def findSplitFull (dv : Char → Option Nat) (fold : Char → Char)
    (pre cs : PyStr) : Option (PyStr × Char × PyStr × PyStr) :=
  match cs with
  | [] => none
  | c :: rest =>
    if c = '_' ∧ pre ≠ [] ∧ (matchTailFull dv fold rest).isSome then
      (matchTailFull dv fold rest).map (fun out => (pre, out))
    else findSplitFull dv fold (pre ++ [c]) rest

/-- The result dict of `parse_scanned_page_filename` built from the raw
regex groups under full semantics: `str.lower()` (the table `slower`)
is applied to the matched type-code and extension characters, and the
numeric page number is `int()` of the Unicode digit run.  (`str.lower`
is context-sensitive only at U+03A3, which folds to no letter of the
grammar's literals and so reaches no group that is lowered.) -/
def mkDescriptorFull (dv : Char → Option Nat) (slower : Char → PyStr)
    (alias' : PyStr) (t : Char) (ds e : PyStr) : ParsedScan :=
  let tl := slower t
  { alias' := alias'
    page_raw_number_str := tl ++ pyZfill PAGE_NUMBER_PADDING ds
    page_type_short := tl
    page_type_full := dictGet PAGE_TYPE_MAPPING tl "Nieznany".data
    page_number_numeric := natOfUniDigits dv ds
    roman_number := if tl = "w".data then romanGet (natOfUniDigits dv ds) else []
    original_extension := '.' :: e.flatMap slower }

/-- The match of `SCAN_FILENAME_REGEX` against a name already stripped of
the one trailing newline `$` may absorb: reject any remaining newline (no
regex element matches one), otherwise scan for the grammatical split. -/
def parseCoreFull (dv : Char → Option Nat) (fold : Char → Char)
    (slower : Char → PyStr) (core : PyStr) : Option ParsedScan :=
  if core.any (· = '\n') then none
  else
    match findSplitFull dv fold [] core with
    | none => none
    | some (alias', t, ds, e) => some (mkDescriptorFull dv slower alias' t ds e)

/-- utils.py `parse_scanned_page_filename` under full CPython `re`
semantics: `re.match` anchors at the start, and `$` matches at the end of
the string or just before the newline at the end of the string, so one
trailing newline is stripped before the anchored match. -/
def parse_scanned_page_filename_full (dv : Char → Option Nat)
    (fold : Char → Char) (slower : Char → PyStr) (fname : PyStr) :
    Option ParsedScan :=
  parseCoreFull dv fold slower
    (if fname.getLast? = some '\n' then fname.dropLast else fname)

/-- A decomposition of a filename witnessing a match of
`SCAN_FILENAME_REGEX` under full `re` semantics: the grammar of
`ValidName` with `\d` read from the table `dv`, case-insensitivity read
from the folding `fold`, and (`nl`) one optional trailing newline
absorbed by `$`. -/
def ValidNameFull (dv : Char → Option Nat) (fold : Char → Char)
    (fname alias' : PyStr) (t : Char) (ds e : PyStr) (nl : Bool) : Prop :=
  fname = alias' ++ '_' :: t :: ds ++ '.' :: (if nl then e ++ ['\n'] else e) ∧
  alias' ≠ [] ∧ (∀ c ∈ alias', c ≠ '\n') ∧
  fold t ∈ typeCodes ∧
  ds ≠ [] ∧ (∀ c ∈ ds, isUniDigit dv c) ∧
  e.map fold ∈ extOptions

instance (dv : Char → Option Nat) (fold : Char → Char)
    (fname alias' : PyStr) (t : Char) (ds e : PyStr) (nl : Bool) :
    Decidable (ValidNameFull dv fold fname alias' t ds e nl) := by
  unfold ValidNameFull; infer_instance

/-- The ASCII column of the Unicode decimal-digit table, as a concrete
table: below codepoint 128 the decimal digits are exactly `'0'..'9'`,
with their usual values. -/
def asciiDv (c : Char) : Option Nat :=
  if isDigitChar c then some (c.toNat - 48) else none

/-- The ASCII column of `str.lower()`, as a concrete table. -/
def asciiSlower (c : Char) : PyStr := [Char.toLower c]

/-- A digit-value table whose ASCII column is correct: ASCII digits carry
their usual values and no other ASCII codepoint is a decimal digit (true
of the real Unicode table). -/
def DigitTableAscii (dv : Char → Option Nat) : Prop :=
  (∀ c : Char, isDigitChar c → dv c = some (c.toNat - 48)) ∧
  (∀ c : Char, c.toNat < 128 → ¬ isDigitChar c → dv c = none)

/-- A case folding whose ASCII column is correct: on codepoints below 128
it is plain ASCII lowercasing (true of the IGNORECASE folding). -/
def FoldTableAscii (fold : Char → Char) : Prop :=
  ∀ c : Char, c.toNat < 128 → fold c = Char.toLower c

/-- A `str.lower()` table whose ASCII column is correct: on codepoints
below 128 it is the singleton ASCII lowercase. -/
def LowerTableAscii (slower : Char → PyStr) : Prop :=
  ∀ c : Char, c.toNat < 128 → slower c = [Char.toLower c]

/- ----------------------------------------------------------------
   app/scanner.py
   ---------------------------------------------------------------- -/

/-- Strict lexicographic comparison of code-point lists (Python `<` on
`str`, the order behind `sorted` and `list.sort`). -/
def pyStrLt : PyStr → PyStr → Bool
  | [], [] => false
  | [], _ :: _ => true
  | _ :: _, [] => false
  | a :: as', b :: bs' =>
    if a = b then pyStrLt as' bs' else decide (a.toNat < b.toNat)

/-- Stable insertion: the new element precedes every element that is not
strictly smaller by key, matching the stability contract of Python sorts. -/
def insertByKey (key : α → PyStr) (x : α) : List α → List α
  | [] => [x]
  | y :: ys => if pyStrLt (key y) (key x) then y :: insertByKey key x ys else x :: y :: ys

/-- Stable sort by a string key (Python `sorted` and `list.sort(key=...)`
are stable; insertion sort realises the same function). -/
def pySortByKey (key : α → PyStr) : List α → List α
  | [] => []
  | x :: xs => insertByKey key x (pySortByKey key xs)

/-- Python `pathlib.Path(name).suffix`: the final `.`-led extension, empty
when the name has no interior dot or nothing follows it. -/
def lastDotIndex (name : PyStr) : Option Nat :=
  ((List.range name.length).filter (fun i => name.getD i ' ' = '.')).getLast?

def path_suffix (name : PyStr) : PyStr :=
  match lastDotIndex name with
  | none => []
  | some i => if 0 < i ∧ i + 1 < name.length then '.' :: name.drop (i + 1) else []

/-- Values of `PAGE_TYPE_MAPPING` (the human page-type labels). -/
def pageTypeValues : List PyStr := PAGE_TYPE_MAPPING.map (·.2)

/-- scanner.py `Scanner._get_files_to_process`: keep the inbox files whose
lowercased suffix is among `config.PAGE_TYPE_MAPPING.values()`, sorted by
name.  The inbox is the list of file names in `SCAN_DIR`. -/
def get_files_to_process (inbox : List PyStr) : List PyStr :=
  pySortByKey id
    (inbox.filter (fun p => (path_suffix p).map Char.toLower ∈ pageTypeValues))

/-- Outcomes of the collaborators of `Scanner.process_scans_batch` for one
run: step 1 alias resolution (session map, metadata form and store lookup,
returning the resolved book hash or nothing when abandoned), step 2 copy
success, step 4 store persist success. -/
structure BatchEnv where
  resolve : PyStr → Option PyStr
  copyOk : PyStr → Bool
  persistOk : PyStr → Bool

/-- Observable per-file effects of one iteration of the loop of
`Scanner.process_scans_batch`. -/
structure FileOutcome where
  fname : PyStr
  parsedOk : Bool
  copied : Bool
  persisted : Bool
  removedOriginal : Bool
deriving DecidableEq

/-- One iteration of the loop of `Scanner.process_scans_batch`: parse the
name (malformed names are unlinked at once); resolve the alias (no
resolution: skip, file left); copy into `processed/` (failure: skip, file
left); OCR (no effect on these observables); upsert into the store (the
result is only logged); finally unlink the original. -/
def processOneFile (env : BatchEnv) (fname : PyStr) : FileOutcome :=
  match parse_scanned_page_filename fname with
  | none =>
    { fname, parsedOk := false, copied := false, persisted := false,
      removedOriginal := true }
  | some d =>
    match env.resolve d.alias' with
    | none =>
      { fname, parsedOk := true, copied := false, persisted := false,
        removedOriginal := false }
    | some _ =>
      if env.copyOk fname then
        { fname, parsedOk := true, copied := true, persisted := env.persistOk fname,
          removedOriginal := true }
      else
        { fname, parsedOk := true, copied := false, persisted := false,
          removedOriginal := false }

/-- scanner.py `Scanner.process_scans_batch`: every selected file is
processed in order; no per-file outcome stops the loop. -/
def process_scans_batch (env : BatchEnv) (files : List PyStr) : List FileOutcome :=
  files.map (processOneFile env)

/- ----------------------------------------------------------------
   app/db_manager.py: DBManager.upsert_book_and_scan
   ---------------------------------------------------------------- -/

/-- Scan dict as `Scanner.process_scans_batch` hands it to the store: the
parsed descriptor fields plus OCR text and the destination path. -/
structure ScanPayload where
  alias' : PyStr
  page_raw_number_str : PyStr
  page_type_short : PyStr
  page_type_full : PyStr
  page_number_numeric : Nat
  roman_number : PyStr
  original_extension : PyStr
  ocr_text : PyStr
  page_full_path : PyStr
deriving DecidableEq

/-- Stored scan entry: the payload with the `processed_at` stamp that
`upsert_book_and_scan` adds. -/
structure ScanRecord where
  alias' : PyStr
  page_raw_number_str : PyStr
  page_type_short : PyStr
  page_type_full : PyStr
  page_number_numeric : Nat
  roman_number : PyStr
  original_extension : PyStr
  ocr_text : PyStr
  page_full_path : PyStr
  processed_at : Nat
deriving DecidableEq

/-- Build the stored scan entry (`scan_info_to_save`). -/
def mkScanRecord (p : ScanPayload) (now : Nat) : ScanRecord :=
  { alias' := p.alias', page_raw_number_str := p.page_raw_number_str,
    page_type_short := p.page_type_short, page_type_full := p.page_type_full,
    page_number_numeric := p.page_number_numeric, roman_number := p.roman_number,
    original_extension := p.original_extension, ocr_text := p.ocr_text,
    page_full_path := p.page_full_path, processed_at := now }

/-- One document of the `books` collection. -/
structure BookDoc where
  book_hash : PyStr
  title : PyStr
  authors : PyStr
  year : PyStr
  pub_place : PyStr
  publisher : PyStr
  num_pages : Option Nat
  notes : PyStr
  keywords : List PyStr
  maps_present : Bool
  illustrations_present : Bool
  tables_present : Bool
  created_at : Nat
  last_updated_book_at : Nat
  scans : List ScanRecord
deriving DecidableEq

/-- MongoDB `update_one`: apply `f` to the first document matching `p`. -/
def updateFirst (p : α → Prop) [DecidablePred p] (f : α → α) : List α → List α
  | [] => []
  | x :: xs => if p x then f x :: xs else x :: updateFirst p f xs

/-- The `$set` part of the book upsert (`book_data_to_upsert`): replace the
metadata fields and the update stamp, leave `created_at` and `scans`. -/
def setBookFields (m : BookMeta) (h : PyStr) (now : Nat) (d : BookDoc) : BookDoc :=
  { d with
    book_hash := h, title := m.title, authors := m.authors, year := m.year,
    pub_place := m.pub_place, publisher := m.publisher, num_pages := m.num_pages,
    notes := m.notes, keywords := m.keywords, maps_present := m.maps_present,
    illustrations_present := m.illustrations_present,
    tables_present := m.tables_present, last_updated_book_at := now }

/-- Document created when the upsert filter matches nothing: filter and
`$set` fields plus the `$setOnInsert` creation stamp; no scans array yet
(an absent array behaves as the empty one for the scan update and push). -/
def newBookDoc (m : BookMeta) (h : PyStr) (now : Nat) : BookDoc :=
  setBookFields m h now
    { book_hash := h, title := [], authors := [], year := [], pub_place := [],
      publisher := [], num_pages := none, notes := [], keywords := [],
      maps_present := false, illustrations_present := false,
      tables_present := false, created_at := now, last_updated_book_at := now,
      scans := [] }

/-- Filter of the scan update: document with this hash holding a scan with
this raw-page token. -/
def hasScanTok (h tok : PyStr) (d : BookDoc) : Prop :=
  d.book_hash = h ∧ ∃ s ∈ d.scans, s.page_raw_number_str = tok

instance (h tok : PyStr) : DecidablePred (hasScanTok h tok) := fun d => by
  unfold hasScanTok; infer_instance

/-- Replace a document's first scan carrying the token (`$set scans.$`). -/
def replaceScanTok (tok : PyStr) (sr : ScanRecord) (d : BookDoc) : BookDoc :=
  { d with scans := updateFirst (fun s => s.page_raw_number_str = tok) (fun _ => sr) d.scans }

/-- First `update_one` of `upsert_book_and_scan`: upsert the book document
by hash; `$setOnInsert` applies only on the insert path. -/
def upsertBookStep (meta : BookMeta) (h : PyStr) (now : Nat)
    (col : List BookDoc) : List BookDoc :=
  if ∃ d ∈ col, d.book_hash = h then
    updateFirst (fun d => d.book_hash = h) (setBookFields meta h now) col
  else col ++ [newBookDoc meta h now]

/-- Second and third `update_one` of `upsert_book_and_scan`: `$set` the
first scan carrying the token in the first document matching hash and
token; when that modifies nothing (`modified_count == 0`), `$push` the scan
onto the first document with the hash. -/
def upsertScanStep (h : PyStr) (sr : ScanRecord) (col1 : List BookDoc) :
    List BookDoc :=
  let col2 :=
    updateFirst (hasScanTok h sr.page_raw_number_str)
      (replaceScanTok sr.page_raw_number_str sr) col1
  if col2 = col1 then
    updateFirst (fun d => d.book_hash = h)
      (fun d => { d with scans := d.scans ++ [sr] }) col1
  else col2

/-- db_manager.py `DBManager.upsert_book_and_scan` on a reachable store:
the book upsert followed by the scan upsert, with `now` standing for the
`datetime.now()` stamps of this call (the source returns `True` on this
path; the collection is the resulting state). -/
def upsert_book_and_scan (nfd : PyStr → PyStr) (combining : Char → Bool)
    (meta : BookMeta) (scan : ScanPayload) (now : Nat)
    (col : List BookDoc) : List BookDoc :=
  upsertScanStep (generate_book_hash nfd combining meta) (mkScanRecord scan now)
    (upsertBookStep meta (generate_book_hash nfd combining meta) now col)

/-- Advance only the timestamps touched by a repeated upsert: the update
stamp of the first document with the hash and the `processed_at` stamp of
its first scan carrying the token. -/
def advance_timestamps (h tok : PyStr) (t : Nat) : List BookDoc → List BookDoc :=
  updateFirst (fun d => d.book_hash = h)
    (fun d =>
      { d with
        last_updated_book_at := t,
        scans := updateFirst (fun s => s.page_raw_number_str = tok)
          (fun s => { s with processed_at := t }) d.scans })

/-- Collection invariant: document hashes are pairwise distinct and each
document's scan tokens are pairwise distinct. -/
def WFCollection (col : List BookDoc) : Prop :=
  col.Pairwise (fun a b => a.book_hash ≠ b.book_hash) ∧
  ∀ d ∈ col, d.scans.Pairwise (fun a b => a.page_raw_number_str ≠ b.page_raw_number_str)

/-- Every stored `processed_at` stamp precedes the time `t` (clock
monotonicity: stamps already persisted predate the next call). -/
def StampsBelow (t : Nat) (col : List BookDoc) : Prop :=
  ∀ d ∈ col, ∀ s ∈ d.scans, s.processed_at < t

/- ----------------------------------------------------------------
   date_indexer.py: build_date_index
   ---------------------------------------------------------------- -/

/-- One element of a scan's `extracted_dates` list: the raw text and the
parsed ISO date (absent or empty when unparseable). -/
structure DatedMention where
  parsed : Option PyStr
  text : PyStr
deriving DecidableEq

/-- One element of a book's `scans` list as `build_date_index` reads it. -/
structure ScanDates where
  path : PyStr
  ocr : PyStr
  extracted_dates : List DatedMention
deriving DecidableEq

/-- One book folder of `data/processed`: the hash directory name and the
fields of its `metadata.json` that the indexer reads. -/
structure BookFolder where
  book_hash : PyStr
  tytul : PyStr
  autor : PyStr
  scans : List ScanDates
deriving DecidableEq

/-- One output entry of `build_date_index`. -/
structure TimelineEntry where
  date_parsed : PyStr
  date_text : PyStr
  book_hash : PyStr
  book_title : PyStr
  book_author : PyStr
  scan_path : PyStr
  ocr_snippet : PyStr
deriving DecidableEq

/-- Entries collected before sorting: one per dated mention of every scan of
every book, in encounter order; mentions whose `parsed` field is missing or
empty (falsy) are skipped. -/
def collectEntries (books : List BookFolder) : List TimelineEntry :=
  books.flatMap (fun b =>
    b.scans.flatMap (fun s =>
      s.extracted_dates.filterMap (fun dt =>
        if dt.parsed.getD [] = [] then none
        else
          some { date_parsed := dt.parsed.getD [], date_text := dt.text,
                 book_hash := b.book_hash, book_title := b.tytul,
                 book_author := b.autor, scan_path := s.path,
                 ocr_snippet := s.ocr.take 80 ++ "...".data })))

/-- date_indexer.py `build_date_index`: collect one entry per dated mention
and sort the whole collection by `date_parsed` (Python `list.sort` with a
key is stable; `pySortByKey` is the same function). -/
def build_date_index (books : List BookFolder) : List TimelineEntry :=
  pySortByKey (·.date_parsed) (collectEntries books)

/-- Three book folders carrying dated mentions on 1945, 1920 and 1989, in
that encounter order (the spec's timeline example). -/
def timelineExampleBooks : List BookFolder :=
  [{ book_hash := "aaaaaaaaaaaa".data, tytul := "Pierwsza".data, autor := "A".data,
     scans := [{ path := "p1.jpg".data, ocr := "bitwa 1945".data,
                 extracted_dates :=
                   [{ parsed := some "1945".data, text := "1945".data }] }] },
   { book_hash := "bbbbbbbbbbbb".data, tytul := "Druga".data, autor := "B".data,
     scans := [{ path := "p2.jpg".data, ocr := "pokoj 1920".data,
                 extracted_dates :=
                   [{ parsed := some "1920".data, text := "1920".data }] }] },
   { book_hash := "cccccccccccc".data, tytul := "Trzecia".data, autor := "C".data,
     scans := [{ path := "p3.jpg".data, ocr := "wybory 1989".data,
                 extracted_dates :=
                   [{ parsed := some "1989".data, text := "1989".data }] }] }]

/-- Concrete metadata record for witnesses. -/
def exampleMeta : BookMeta :=
  { title := "Historia Dawna".data, authors := "Anna Krawczyk".data,
    year := "2023".data, pub_place := "Krakow".data,
    publisher := "Wydawnictwo ABC".data, num_pages := some 300,
    notes := "Testowa".data, keywords := ["historia".data],
    maps_present := false, illustrations_present := false,
    tables_present := false }

/-- Concrete scan payload for witnesses. -/
def exampleScan : ScanPayload :=
  { alias' := "TestKsiazka".data, page_raw_number_str := "s0001".data,
    page_type_short := "s".data, page_type_full := "Strona Główna".data,
    page_number_numeric := 1, roman_number := [],
    original_extension := ".jpg".data, ocr_text := "tekst".data,
    page_full_path := "processed/x/s0001.jpg".data }

/-- Concrete stored document for witnesses, keyed by the identity derived
from `exampleMeta`. -/
def exampleDoc : BookDoc :=
  { book_hash := generate_book_hash id (fun _ => false) exampleMeta,
    title := "Stary Tytul".data, authors := "Ktos".data, year := "1990".data,
    pub_place := "Lodz".data, publisher := [], num_pages := none,
    notes := [], keywords := [], maps_present := true,
    illustrations_present := false, tables_present := false,
    created_at := 3, last_updated_book_at := 3, scans := [] }

/- ================================================================
   Theorems
   ================================================================ -/

/- C1: normalisation insensitivity of the identity hash. -/

/-- C1: for any two metadata records whose four identity fields (title,
authors, year, place of publication) agree after stripping surrounding
whitespace, removing diacritical marks and remaining non-ASCII code points,
and lowercasing, `generate_book_hash` returns the same identity token; the
function is a pure function of those normalised fields, hence deterministic
and insensitive to casing, diacritics, and surrounding whitespace. -/
theorem generate_book_hash_normalized_eq (nfd : PyStr → PyStr)
    (combining : Char → Bool) (m1 m2 : BookMeta)
    (ht : safe_get_and_normalize nfd combining m1.title =
      safe_get_and_normalize nfd combining m2.title)
    (ha : safe_get_and_normalize nfd combining m1.authors =
      safe_get_and_normalize nfd combining m2.authors)
    (hy : safe_get_and_normalize nfd combining m1.year =
      safe_get_and_normalize nfd combining m2.year)
    (hp : safe_get_and_normalize nfd combining m1.pub_place =
      safe_get_and_normalize nfd combining m2.pub_place) :
    generate_book_hash nfd combining m1 = generate_book_hash nfd combining m2 := by
  simp only [generate_book_hash, ht, ha, hy, hp]

/-- C1 witness: two records differing only in case, surrounding whitespace
and a diacritic resolve to one identity. -/
theorem generate_book_hash_normalized_eq_witness :
    generate_book_hash id (fun c => c = Char.ofNat 0x301)
      { title := "  Historia POLSKI ".data, authors := "Jan Kowalski".data,
        year := " 1984".data, pub_place := "WARSZAWA".data, publisher := [],
        num_pages := none, notes := [], keywords := [], maps_present := false,
        illustrations_present := false, tables_present := false } =
    generate_book_hash id (fun c => c = Char.ofNat 0x301)
      { title := "historia polski".data, authors := "JAN kowalski".data,
        year := "1984 ".data, pub_place := "Warszawa".data, publisher := "x".data,
        num_pages := some 7, notes := "n".data, keywords := ["k".data],
        maps_present := true, illustrations_present := true, tables_present := true } :=
  generate_book_hash_normalized_eq _ _ _ _ (by decide) (by decide) (by decide) (by decide)

/- C4: the batch selector. -/

/-- The suffix of a name is empty or starts with a dot. -/
theorem path_suffix_shape (name : PyStr) :
    path_suffix name = [] ∨ ∃ r, path_suffix name = '.' :: r := by
  cases h : lastDotIndex name with
  | none => exact Or.inl (by simp [path_suffix, h])
  | some i =>
    by_cases hc : 0 < i ∧ i + 1 < name.length
    · exact Or.inr ⟨name.drop (i + 1), by simp [path_suffix, h, hc]⟩
    · exact Or.inl (by simp [path_suffix, h, hc])

/-- No lowercased suffix is a page-type label: labels are non-empty and do
not start with a dot. -/
theorem lower_suffix_not_label (s : PyStr)
    (hs : s = [] ∨ ∃ r, s = '.' :: r) :
    s.map Char.toLower ∉ pageTypeValues := by
  rcases hs with h | ⟨r, h⟩ <;> subst h <;> intro hmem <;>
    simp [pageTypeValues, PAGE_TYPE_MAPPING] at hmem

/-- C4: `Scanner._get_files_to_process` compares each file's lowercased
suffix against the human page-type labels in `PAGE_TYPE_MAPPING.values()`
instead of the supported image extensions, so it selects no file at all: a
batch whose inbox holds one malformed and one valid filename processes
neither, instead of processing the valid one and rejecting the other.  The
valid name does parse, so the selector alone discards it. -/
theorem get_files_to_process_selects_nothing :
    (∀ inbox : List PyStr, get_files_to_process inbox = []) ∧
    parse_scanned_page_filename "Dobra_s0001.jpg".data ≠ none ∧
    get_files_to_process ["Dobra_s0001.jpg".data, "zla nazwa.jpg".data] = [] := by
  have hall : ∀ inbox : List PyStr, get_files_to_process inbox = [] := by
    intro inbox
    unfold get_files_to_process
    have : inbox.filter
        (fun p => (path_suffix p).map Char.toLower ∈ pageTypeValues) = [] := by
      rw [List.filter_eq_nil_iff]
      intro p _
      simpa using lower_suffix_not_label (path_suffix p) (path_suffix_shape p)
    rw [this]
    rfl
  exact ⟨hall, by decide, hall _⟩

/- C5: fate of the original file. -/

/-- C5 counterexample: a parse-valid, resolved, successfully copied file is
removed from the inbox even though the persist step failed, contradicting
the claim that the original is removed only after a successful persist. -/
theorem removed_despite_persist_failure :
    (processOneFile
        { resolve := fun _ => some "0123456789ab".data,
          copyOk := fun _ => true, persistOk := fun _ => false }
        "Kronika_s0001.jpg".data).persisted = false ∧
    (processOneFile
        { resolve := fun _ => some "0123456789ab".data,
          copyOk := fun _ => true, persistOk := fun _ => false }
        "Kronika_s0001.jpg".data).removedOriginal = true := by
  constructor <;> rfl

/-- C5 amended: the original inbox file is removed exactly when the name
fails to parse (immediate unlink) or when the alias resolves and the copy
into `processed/` succeeds; the removal is independent of the persist
outcome, so a persist failure leaves nothing behind for retry, and the
batch always continues with the next file. -/
theorem removal_independent_of_persist :
    (∀ (env : BatchEnv) (fname : PyStr),
      (processOneFile env fname).removedOriginal =
        (match parse_scanned_page_filename fname with
         | none => true
         | some d =>
           match env.resolve d.alias' with
           | none => false
           | some _ => env.copyOk fname)) ∧
    (∀ (env : BatchEnv) (fname : PyStr) (rest : List PyStr),
      process_scans_batch env (fname :: rest) =
        processOneFile env fname :: process_scans_batch env rest) := by
  constructor
  · intro env fname
    cases hp : parse_scanned_page_filename fname with
    | none => simp [processOneFile, hp]
    | some d =>
      cases hr : env.resolve d.alias' with
      | none => simp [processOneFile, hp, hr]
      | some v => by_cases hc : env.copyOk fname <;> simp [processOneFile, hp, hr, hc]
  · intro env fname rest
    rfl

/- C2, C7, C9, C10: the filename grammar. -/

/-- Characters of `typeCodes` are lowercase-fixed. -/
theorem typeCodes_lower_fixed : ∀ c ∈ typeCodes, Char.toLower c = c := by decide

/-- Characters of `typeCodes` are neither underscore nor newline. -/
theorem typeCodes_not_special : ∀ c ∈ typeCodes, c ≠ '_' ∧ c ≠ '\n' := by decide

/-- Characters of the extension alternatives are neither underscore nor
newline. -/
theorem extOptions_chars : ∀ l ∈ extOptions, ∀ c ∈ l, c ≠ '_' ∧ c ≠ '\n' := by decide

/-- The extension alternatives are lowercase-fixed. -/
theorem extOptions_lower_fixed : ∀ l ∈ extOptions, l.map Char.toLower = l := by decide

/-- A character whose lowercase form is a type code is not an underscore. -/
theorem code_ne_underscore {c : Char} (h : Char.toLower c ∈ typeCodes) : c ≠ '_' := by
  intro he; subst he; revert h; decide

/-- A character whose lowercase form is a type code is not a newline. -/
theorem code_ne_newline {c : Char} (h : Char.toLower c ∈ typeCodes) : c ≠ '\n' := by
  intro he; subst he; revert h; decide

/-- Characters of an extension accepted case-insensitively are neither
underscore nor newline. -/
theorem ext_chars_ne {e : PyStr} (he : e.map Char.toLower ∈ extOptions) :
    ∀ c ∈ e, c ≠ '_' ∧ c ≠ '\n' := by
  intro c hc
  have hm := extOptions_chars _ he _ (List.mem_map_of_mem Char.toLower hc)
  constructor
  · intro h; subst h; exact hm.1 (by decide)
  · intro h; subst h; exact hm.2 (by decide)

/-- A digit character is neither underscore nor newline. -/
theorem digit_ne {c : Char} (h : isDigitChar c) : c ≠ '_' ∧ c ≠ '\n' := by
  constructor <;> intro he <;> subst he <;> revert h <;> decide

/-- A run of characters satisfying `p` followed by a failing character
splits `takeWhile` and `dropWhile` at that character. -/
theorem takeWhile_all_append {p : α → Bool} {l1 : List α} (x : α) (l2 : List α)
    (h1 : ∀ c ∈ l1, p c) (hx : ¬ p x) :
    (l1 ++ x :: l2).takeWhile p = l1 ∧ (l1 ++ x :: l2).dropWhile p = x :: l2 := by
  induction l1 with
  | nil => simp [List.takeWhile_cons, List.dropWhile_cons, hx]
  | cons a l ih =>
    have ha : p a := h1 a (by simp)
    have hrec := ih (fun c hc => h1 c (by simp [hc]))
    simp [List.takeWhile_cons, List.dropWhile_cons, ha, hrec.1, hrec.2]

/-- One-step unfolding of `matchTail` on a non-empty input. -/
theorem matchTail_cons (t : Char) (rest : PyStr) :
    matchTail (t :: rest) =
      (if Char.toLower t ∈ typeCodes ∧ rest.takeWhile isDigitChar ≠ [] ∧
          (rest.dropWhile isDigitChar).head? = some '.' ∧
          (rest.dropWhile isDigitChar).tail.map Char.toLower ∈ extOptions then
        some (t, rest.takeWhile isDigitChar, (rest.dropWhile isDigitChar).tail)
      else none) := rfl

/-- One-step unfolding of `findSplit` on a non-empty input. -/
theorem findSplit_cons (pre : PyStr) (c : Char) (rest : PyStr) :
    findSplit pre (c :: rest) =
      (if c = '_' ∧ pre ≠ [] ∧ (matchTail rest).isSome then
        (matchTail rest).map (fun out => (pre, out))
      else findSplit (pre ++ [c]) rest) := rfl

/-- Soundness of `matchTail`: a successful match decomposes its input into
type code, digit run, dot, and extension with the grammar's constraints. -/
theorem matchTail_sound {cs : PyStr} {t : Char} {ds e : PyStr}
    (h : matchTail cs = some (t, ds, e)) :
    cs = t :: ds ++ '.' :: e ∧ Char.toLower t ∈ typeCodes ∧ ds ≠ [] ∧
      (∀ c ∈ ds, isDigitChar c) ∧ e.map Char.toLower ∈ extOptions := by
  cases cs with
  | nil => simp [matchTail] at h
  | cons t' rest =>
    rw [matchTail_cons] at h
    by_cases hcond : Char.toLower t' ∈ typeCodes ∧ rest.takeWhile isDigitChar ≠ [] ∧
        (rest.dropWhile isDigitChar).head? = some '.' ∧
        (rest.dropWhile isDigitChar).tail.map Char.toLower ∈ extOptions
    · rw [if_pos hcond] at h
      simp only [Option.some.injEq, Prod.mk.injEq] at h
      obtain ⟨rfl, hds, he⟩ := h
      obtain ⟨hcode, hne, hhead, hext⟩ := hcond
      have hdw : rest.dropWhile isDigitChar = '.' :: (rest.dropWhile isDigitChar).tail := by
        cases hdd : rest.dropWhile isDigitChar with
        | nil => rw [hdd] at hhead; exact absurd hhead (by simp)
        | cons c r =>
          rw [hdd] at hhead
          simp only [List.head?_cons, Option.some.injEq] at hhead
          simp [hdd, hhead]
      refine ⟨?_, hcode, ?_, ?_, by rw [he] at hext; exact hext⟩
      · rw [← hds, ← he]
        have hsp := List.takeWhile_append_dropWhile isDigitChar rest
        conv_lhs => rw [← hsp, hdw]
        rw [List.cons_append]
      · rw [← hds]; exact hne
      · rw [← hds]; intro c hc; exact List.mem_takeWhile_imp hc
    · rw [if_neg hcond] at h; exact absurd h (by simp)

/-- Completeness of `matchTail` on a grammatical tail. -/
theorem matchTail_complete {t : Char} {ds e : PyStr}
    (hcode : Char.toLower t ∈ typeCodes) (hds : ds ≠ [])
    (hdig : ∀ c ∈ ds, isDigitChar c) (he : e.map Char.toLower ∈ extOptions) :
    matchTail (t :: ds ++ '.' :: e) = some (t, ds, e) := by
  have hsplit := takeWhile_all_append (p := isDigitChar) '.' e hdig (by decide)
  show matchTail (t :: (ds ++ '.' :: e)) = some (t, ds, e)
  rw [matchTail_cons, hsplit.1, hsplit.2]
  simp [hcode, hds, he]

/-- A successful `matchTail` input contains no underscore. -/
theorem matchTail_no_underscore {cs : PyStr} {t : Char} {ds e : PyStr}
    (h : matchTail cs = some (t, ds, e)) : '_' ∉ cs := by
  obtain ⟨hcs, hcode, _, hdig, he⟩ := matchTail_sound h
  subst hcs
  intro hmem
  rcases List.mem_cons.1 hmem with h1 | h2
  · exact code_ne_underscore hcode h1.symm
  rcases List.mem_append.1 h2 with h3 | h4
  · exact (digit_ne (hdig _ h3)).1 rfl
  rcases List.mem_cons.1 h4 with h5 | h6
  · exact absurd h5.symm (by decide)
  · exact (ext_chars_ne he _ h6).1 rfl

/-- Soundness of `findSplit`: a successful scan yields a grammatical
decomposition of the remaining input. -/
theorem findSplit_sound : ∀ (cs pre : PyStr) {al : PyStr} {t : Char} {ds e : PyStr},
    findSplit pre cs = some (al, t, ds, e) →
    ∃ mid, al = pre ++ mid ∧ cs = mid ++ '_' :: t :: ds ++ '.' :: e ∧ al ≠ [] ∧
      Char.toLower t ∈ typeCodes ∧ ds ≠ [] ∧ (∀ c ∈ ds, isDigitChar c) ∧
      e.map Char.toLower ∈ extOptions := by
  intro cs
  induction cs with
  | nil => intro pre al t ds e h; simp [findSplit] at h
  | cons c rest ih =>
    intro pre al t ds e h
    rw [findSplit_cons] at h
    by_cases hc : c = '_' ∧ pre ≠ [] ∧ (matchTail rest).isSome
    · rw [if_pos hc] at h
      obtain ⟨out, hmt⟩ := Option.isSome_iff_exists.1 hc.2.2
      obtain ⟨t', ds', e'⟩ := out
      rw [hmt] at h
      simp only [Option.map_some', Option.some.injEq, Prod.mk.injEq] at h
      obtain ⟨rfl, rfl, rfl, rfl⟩ := h
      obtain ⟨hrest, hcode, hds, hdig, he⟩ := matchTail_sound hmt
      exact ⟨[], by simp, by simp [hc.1, hrest], hc.2.1, hcode, hds, hdig, he⟩
    · rw [if_neg hc] at h
      obtain ⟨mid, hal, hrest, hne, hcode, hds, hdig, he⟩ := ih (pre ++ [c]) h
      exact ⟨c :: mid, by simp [hal], by simp [hrest], hne, hcode, hds, hdig, he⟩

/-- Completeness of `findSplit`: on a filename that decomposes
grammatically, the scan returns exactly that decomposition (the suffix
contains no underscore, so no earlier underscore can match). -/
theorem findSplit_complete : ∀ (a pre : PyStr) {t : Char} {ds e : PyStr},
    a ≠ [] → Char.toLower t ∈ typeCodes → ds ≠ [] → (∀ c ∈ ds, isDigitChar c) →
    e.map Char.toLower ∈ extOptions →
    findSplit pre (a ++ '_' :: t :: ds ++ '.' :: e) = some (pre ++ a, t, ds, e) := by
  intro a
  induction a with
  | nil => intro pre t ds e ha; exact absurd rfl ha
  | cons x a' ih =>
    intro pre t ds e _ hcode hds hdig he
    cases a' with
    | nil =>
      have hmtc := matchTail_complete hcode hds hdig he
      have hstep : findSplit (pre ++ [x]) ('_' :: (t :: ds ++ '.' :: e)) =
          some (pre ++ [x], t, ds, e) := by
        rw [findSplit_cons, hmtc]
        rw [if_pos ⟨rfl, by simp, rfl⟩]
        rfl
      have hnone : matchTail ('_' :: (t :: ds ++ '.' :: e)) = none := by
        rw [matchTail_cons]
        exact if_neg (fun hcontra => absurd hcontra.1 (by decide))
      show findSplit pre (x :: ('_' :: (t :: ds ++ '.' :: e))) = some (pre ++ [x], t, ds, e)
      rw [findSplit_cons, hnone]
      have hiss : ¬ (x = '_' ∧ pre ≠ [] ∧ (Option.isSome (none : Option (Char × PyStr × PyStr)) = true)) := by
        rintro ⟨-, -, hfalse⟩
        simp at hfalse
      rw [if_neg hiss]
      exact hstep
    | cons y a'' =>
      have hnone : matchTail ((y :: a'') ++ '_' :: t :: ds ++ '.' :: e) = none := by
        cases hmt : matchTail ((y :: a'') ++ '_' :: t :: ds ++ '.' :: e) with
        | none => rfl
        | some out =>
          obtain ⟨t', ds', e'⟩ := out
          exact absurd (by simp : '_' ∈ (y :: a'') ++ '_' :: t :: ds ++ '.' :: e)
            (matchTail_no_underscore hmt)
      have hrec := ih (pre ++ [x]) (by simp) hcode hds hdig he
      show findSplit pre (x :: ((y :: a'') ++ '_' :: t :: ds ++ '.' :: e)) =
        some (pre ++ x :: y :: a'', t, ds, e)
      rw [findSplit_cons, hnone]
      have hiss : ¬ (x = '_' ∧ pre ≠ [] ∧ (Option.isSome (none : Option (Char × PyStr × PyStr)) = true)) := by
        rintro ⟨-, -, hfalse⟩
        simp at hfalse
      rw [if_neg hiss, hrec]
      simp

/-- Soundness of the parser: an accepted name has a grammatical
decomposition and the returned dict is built from its groups. -/
theorem parse_sound {fname : PyStr} {d : ParsedScan}
    (h : parse_scanned_page_filename fname = some d) :
    ∃ al t ds e, ValidName fname al t ds e ∧ d = mkDescriptor al t ds e := by
  unfold parse_scanned_page_filename at h
  by_cases hnl : fname.any (· = '\n')
  · rw [if_pos hnl] at h; exact absurd h (by simp)
  · rw [if_neg hnl] at h
    cases hfs : findSplit [] fname with
    | none => rw [hfs] at h; exact absurd h (by simp)
    | some out =>
      obtain ⟨al, t, ds, e⟩ := out
      rw [hfs] at h
      simp only [Option.some.injEq] at h
      obtain ⟨mid, hal, hcs, hne, hcode, hds, hdig, he⟩ := findSplit_sound fname [] hfs
      simp only [List.nil_append] at hal
      subst hal
      refine ⟨al, t, ds, e, ⟨hcs, hne, ?_, hcode, hds, hdig, he⟩, h.symm⟩
      intro c hc hcn
      subst hcn
      simp only [List.any_eq_true, decide_eq_true_eq, not_exists] at hnl
      exact hnl '\n' ⟨by rw [hcs]; simp [hc], rfl⟩

/-- Completeness of the parser: every grammatical decomposition is accepted
and produces the dict built from its groups. -/
theorem parse_complete {fname al : PyStr} {t : Char} {ds e : PyStr}
    (hv : ValidName fname al t ds e) :
    parse_scanned_page_filename fname = some (mkDescriptor al t ds e) := by
  obtain ⟨hf, hne, hnl, hcode, hds, hdig, he⟩ := hv
  subst hf
  unfold parse_scanned_page_filename
  have hnoany : ¬ (al ++ '_' :: t :: ds ++ '.' :: e).any (· = '\n') := by
    simp only [List.any_eq_true, decide_eq_true_eq, not_exists]
    intro c hcpair
    obtain ⟨hc, hcn⟩ := hcpair
    subst hcn
    rcases List.mem_append.1 hc with h1 | h8
    · rcases List.mem_append.1 h1 with h2 | h3
      · exact hnl _ h2 rfl
      · rcases List.mem_cons.1 h3 with h4 | h5
        · exact absurd h4 (by decide)
        rcases List.mem_cons.1 h5 with h6 | h7
        · exact code_ne_newline hcode h6.symm
        · exact (digit_ne (hdig _ h7)).2 rfl
    · rcases List.mem_cons.1 h8 with h9 | h10
      · exact absurd h9 (by decide)
      · exact (ext_chars_ne he _ h10).2 rfl
  rw [if_neg hnoany, findSplit_complete al [] hne hcode hds hdig he]
  simp

/-- Exactness of the ASCII reading of the grammar:
`parse_scanned_page_filename` accepts exactly the names that decompose per
the documented regex read with ASCII digits, ASCII case-insensitivity and
a strict end anchor, and returns `none` on all others; an accepted name's
descriptor is built from the groups of its grammatical decomposition, in
which the alias is the entire prefix before the final
type-code+digits+extension suffix (the decomposition's alias is unique, so
an alias containing underscores is never split at its first underscore),
the numeric page number is the integer value of the digit run, and the raw
page token is the lowercased type code followed by the digits zero-padded
to width `PAGE_NUMBER_PADDING`. -/
theorem parse_scanned_page_filename_exact :
    (∀ fname d, parse_scanned_page_filename fname = some d →
      ∃ al t ds e, ValidName fname al t ds e ∧ d = mkDescriptor al t ds e) ∧
    (∀ fname al t ds e, ValidName fname al t ds e →
      parse_scanned_page_filename fname = some (mkDescriptor al t ds e)) ∧
    (∀ fname al t ds e al' t' ds' e', ValidName fname al t ds e →
      ValidName fname al' t' ds' e' → al = al') := by
  refine ⟨fun _ _ h => parse_sound h, fun _ _ _ _ _ hv => parse_complete hv, ?_⟩
  intro fname al t ds e al' t' ds' e' h1 h2
  have e1 := parse_complete h1
  have e2 := parse_complete h2
  rw [e1] at e2
  have e3 := Option.some.inj e2
  simpa [mkDescriptor] using congrArg ParsedScan.alias' e3

/-- Instance of the ASCII exactness: a name whose alias itself contains an
underscore parses with the whole prefix as the alias and pads the page
number to four digits. -/
theorem parse_scanned_page_filename_exact_witness :
    parse_scanned_page_filename "Moja_Ksiazka_s12.jpg".data =
      some (mkDescriptor "Moja_Ksiazka".data 's' "12".data "jpg".data) :=
  parse_scanned_page_filename_exact.2.1 _ _ _ _ _ (by decide)

/- C2: the parser under full CPython `re` semantics. -/

/-- The concrete ASCII digit table has a correct ASCII column. -/
theorem asciiDv_table : DigitTableAscii asciiDv := by
  constructor
  · intro c hc; unfold asciiDv; rw [if_pos hc]
  · intro c _ hc; unfold asciiDv; rw [if_neg hc]

/-- ASCII lowercasing is an IGNORECASE folding with a correct ASCII
column. -/
theorem toLower_fold_table : FoldTableAscii Char.toLower := fun _ _ => rfl

/-- The concrete ASCII `str.lower()` table has a correct ASCII column. -/
theorem asciiSlower_table : LowerTableAscii asciiSlower := fun _ _ => rfl

/-- On ASCII codepoints the class `\d` of a conforming table is the ASCII
digit test. -/
theorem uniDigit_eq_ascii {dv : Char → Option Nat} (hdv : DigitTableAscii dv)
    (c : Char) (hc : c.toNat < 128) : isUniDigit dv c = isDigitChar c := by
  unfold isUniDigit
  by_cases hd : isDigitChar c
  · rw [hdv.1 c hd, hd]; rfl
  · have hd' : isDigitChar c = false := by
      cases hq : isDigitChar c
      · rfl
      · exact absurd hq hd
    rw [hdv.2 c hc hd, hd']
    rfl

/-- An ASCII digit is a Unicode digit of every conforming table. -/
theorem isUniDigit_of_ascii {dv : Char → Option Nat} (hdv : DigitTableAscii dv)
    {c : Char} (hc : isDigitChar c) : isUniDigit dv c := by
  simp only [isUniDigit]
  rw [hdv.1 c hc]
  rfl

/-- A character folding into the type-code set is not an underscore. -/
theorem fold_code_ne_underscore {fold : Char → Char} (hf : FoldTableAscii fold)
    {c : Char} (h : fold c ∈ typeCodes) : c ≠ '_' := by
  intro he; subst he
  rw [hf '_' (by decide)] at h
  revert h; decide

/-- A character folding into the type-code set is not a newline. -/
theorem fold_code_ne_newline {fold : Char → Char} (hf : FoldTableAscii fold)
    {c : Char} (h : fold c ∈ typeCodes) : c ≠ '\n' := by
  intro he; subst he
  rw [hf '\n' (by decide)] at h
  revert h; decide

/-- Characters of an extension accepted up to folding are neither
underscore nor newline. -/
theorem fold_ext_chars_ne {fold : Char → Char} (hf : FoldTableAscii fold)
    {e : PyStr} (he : e.map fold ∈ extOptions) :
    ∀ c ∈ e, c ≠ '_' ∧ c ≠ '\n' := by
  intro c hc
  have hm := extOptions_chars _ he _ (List.mem_map_of_mem fold hc)
  constructor
  · intro h; subst h
    exact hm.1 ((hf '_' (by decide)).trans (by decide))
  · intro h; subst h
    exact hm.2 ((hf '\n' (by decide)).trans (by decide))

/-- A Unicode digit of a conforming table is neither underscore nor
newline. -/
theorem uniDigit_ne {dv : Char → Option Nat} (hdv : DigitTableAscii dv)
    {c : Char} (h : isUniDigit dv c) : c ≠ '_' ∧ c ≠ '\n' := by
  constructor
  · intro he; subst he
    rw [uniDigit_eq_ascii hdv '_' (by decide)] at h
    revert h; decide
  · intro he; subst he
    rw [uniDigit_eq_ascii hdv '\n' (by decide)] at h
    revert h; decide

/-- Folding agrees with ASCII lowercasing on an ASCII string. -/
theorem map_fold_ascii {fold : Char → Char} (hf : FoldTableAscii fold) :
    ∀ (e : PyStr), (∀ c ∈ e, c.toNat < 128) →
      e.map fold = e.map Char.toLower := by
  intro e
  induction e with
  | nil => intro _; rfl
  | cons c cs ih =>
    intro h
    rw [List.map_cons, List.map_cons, hf c (h c (by simp)),
        ih (fun x hx => h x (by simp [hx]))]

/-- One-step unfolding of `matchTailFull` on a non-empty input. -/
theorem matchTailFull_cons (dv : Char → Option Nat) (fold : Char → Char)
    (t : Char) (rest : PyStr) :
    matchTailFull dv fold (t :: rest) =
      (if fold t ∈ typeCodes ∧ rest.takeWhile (isUniDigit dv) ≠ [] ∧
          (rest.dropWhile (isUniDigit dv)).head? = some '.' ∧
          (rest.dropWhile (isUniDigit dv)).tail.map fold ∈ extOptions then
        some (t, rest.takeWhile (isUniDigit dv),
          (rest.dropWhile (isUniDigit dv)).tail)
      else none) := rfl

/-- One-step unfolding of `findSplitFull` on a non-empty input. -/
theorem findSplitFull_cons (dv : Char → Option Nat) (fold : Char → Char)
    (pre : PyStr) (c : Char) (rest : PyStr) :
    findSplitFull dv fold pre (c :: rest) =
      (if c = '_' ∧ pre ≠ [] ∧ (matchTailFull dv fold rest).isSome then
        (matchTailFull dv fold rest).map (fun out => (pre, out))
      else findSplitFull dv fold (pre ++ [c]) rest) := rfl

/-- Soundness of `matchTailFull`: a successful match decomposes its input
into type code, digit run, dot, and extension with the full grammar's
constraints. -/
theorem matchTailFull_sound {dv : Char → Option Nat} {fold : Char → Char}
    {cs : PyStr} {t : Char} {ds e : PyStr}
    (h : matchTailFull dv fold cs = some (t, ds, e)) :
    cs = t :: ds ++ '.' :: e ∧ fold t ∈ typeCodes ∧ ds ≠ [] ∧
      (∀ c ∈ ds, isUniDigit dv c) ∧ e.map fold ∈ extOptions := by
  cases cs with
  | nil => simp [matchTailFull] at h
  | cons t' rest =>
    rw [matchTailFull_cons] at h
    by_cases hcond : fold t' ∈ typeCodes ∧ rest.takeWhile (isUniDigit dv) ≠ [] ∧
        (rest.dropWhile (isUniDigit dv)).head? = some '.' ∧
        (rest.dropWhile (isUniDigit dv)).tail.map fold ∈ extOptions
    · rw [if_pos hcond] at h
      simp only [Option.some.injEq, Prod.mk.injEq] at h
      obtain ⟨rfl, hds, he⟩ := h
      obtain ⟨hcode, hne, hhead, hext⟩ := hcond
      have hdw : rest.dropWhile (isUniDigit dv) =
          '.' :: (rest.dropWhile (isUniDigit dv)).tail := by
        cases hdd : rest.dropWhile (isUniDigit dv) with
        | nil => rw [hdd] at hhead; exact absurd hhead (by simp)
        | cons c r =>
          rw [hdd] at hhead
          simp only [List.head?_cons, Option.some.injEq] at hhead
          simp [hdd, hhead]
      refine ⟨?_, hcode, ?_, ?_, by rw [he] at hext; exact hext⟩
      · rw [← hds, ← he]
        have hsp := List.takeWhile_append_dropWhile (isUniDigit dv) rest
        conv_lhs => rw [← hsp, hdw]
        rw [List.cons_append]
      · rw [← hds]; exact hne
      · rw [← hds]; intro c hc; exact List.mem_takeWhile_imp hc
    · rw [if_neg hcond] at h; exact absurd h (by simp)

/-- Completeness of `matchTailFull` on a grammatical tail. -/
theorem matchTailFull_complete {dv : Char → Option Nat} {fold : Char → Char}
    (hdv : DigitTableAscii dv) {t : Char} {ds e : PyStr}
    (hcode : fold t ∈ typeCodes) (hds : ds ≠ [])
    (hdig : ∀ c ∈ ds, isUniDigit dv c) (he : e.map fold ∈ extOptions) :
    matchTailFull dv fold (t :: ds ++ '.' :: e) = some (t, ds, e) := by
  have hdot : ¬ isUniDigit dv '.' := by
    rw [uniDigit_eq_ascii hdv '.' (by decide)]; decide
  have hsplit := takeWhile_all_append (p := isUniDigit dv) '.' e hdig hdot
  show matchTailFull dv fold (t :: (ds ++ '.' :: e)) = some (t, ds, e)
  rw [matchTailFull_cons, hsplit.1, hsplit.2]
  simp [hcode, hds, he]

/-- A successful `matchTailFull` input contains no underscore. -/
theorem matchTailFull_no_underscore {dv : Char → Option Nat} {fold : Char → Char}
    (hdv : DigitTableAscii dv) (hf : FoldTableAscii fold)
    {cs : PyStr} {t : Char} {ds e : PyStr}
    (h : matchTailFull dv fold cs = some (t, ds, e)) : '_' ∉ cs := by
  obtain ⟨hcs, hcode, _, hdig, he⟩ := matchTailFull_sound h
  subst hcs
  intro hmem
  rcases List.mem_cons.1 hmem with h1 | h2
  · exact fold_code_ne_underscore hf hcode h1.symm
  rcases List.mem_append.1 h2 with h3 | h4
  · exact (uniDigit_ne hdv (hdig _ h3)).1 rfl
  rcases List.mem_cons.1 h4 with h5 | h6
  · exact absurd h5.symm (by decide)
  · exact (fold_ext_chars_ne hf he _ h6).1 rfl

/-- Soundness of `findSplitFull`. -/
theorem findSplitFull_sound {dv : Char → Option Nat} {fold : Char → Char} :
    ∀ (cs pre : PyStr) {al : PyStr} {t : Char} {ds e : PyStr},
    findSplitFull dv fold pre cs = some (al, t, ds, e) →
    ∃ mid, al = pre ++ mid ∧ cs = mid ++ '_' :: t :: ds ++ '.' :: e ∧ al ≠ [] ∧
      fold t ∈ typeCodes ∧ ds ≠ [] ∧ (∀ c ∈ ds, isUniDigit dv c) ∧
      e.map fold ∈ extOptions := by
  intro cs
  induction cs with
  | nil => intro pre al t ds e h; simp [findSplitFull] at h
  | cons c rest ih =>
    intro pre al t ds e h
    rw [findSplitFull_cons] at h
    by_cases hc : c = '_' ∧ pre ≠ [] ∧ (matchTailFull dv fold rest).isSome
    · rw [if_pos hc] at h
      obtain ⟨out, hmt⟩ := Option.isSome_iff_exists.1 hc.2.2
      obtain ⟨t', ds', e'⟩ := out
      rw [hmt] at h
      simp only [Option.map_some', Option.some.injEq, Prod.mk.injEq] at h
      obtain ⟨rfl, rfl, rfl, rfl⟩ := h
      obtain ⟨hrest, hcode, hds, hdig, he⟩ := matchTailFull_sound hmt
      exact ⟨[], by simp, by simp [hc.1, hrest], hc.2.1, hcode, hds, hdig, he⟩
    · rw [if_neg hc] at h
      obtain ⟨mid, hal, hrest, hne, hcode, hds, hdig, he⟩ := ih (pre ++ [c]) h
      exact ⟨c :: mid, by simp [hal], by simp [hrest], hne, hcode, hds, hdig, he⟩

/-- Completeness of `findSplitFull` on a grammatically decomposed name. -/
theorem findSplitFull_complete {dv : Char → Option Nat} {fold : Char → Char}
    (hdv : DigitTableAscii dv) (hf : FoldTableAscii fold) :
    ∀ (a pre : PyStr) {t : Char} {ds e : PyStr},
    a ≠ [] → fold t ∈ typeCodes → ds ≠ [] → (∀ c ∈ ds, isUniDigit dv c) →
    e.map fold ∈ extOptions →
    findSplitFull dv fold pre (a ++ '_' :: t :: ds ++ '.' :: e) =
      some (pre ++ a, t, ds, e) := by
  intro a
  induction a with
  | nil => intro pre t ds e ha; exact absurd rfl ha
  | cons x a' ih =>
    intro pre t ds e _ hcode hds hdig he
    cases a' with
    | nil =>
      have hmtc := matchTailFull_complete hdv hcode hds hdig he
      have hstep : findSplitFull dv fold (pre ++ [x])
          ('_' :: (t :: ds ++ '.' :: e)) = some (pre ++ [x], t, ds, e) := by
        rw [findSplitFull_cons, hmtc]
        rw [if_pos ⟨rfl, by simp, rfl⟩]
        rfl
      have hnone : matchTailFull dv fold ('_' :: (t :: ds ++ '.' :: e)) = none := by
        rw [matchTailFull_cons]
        exact if_neg (fun hcontra => fold_code_ne_underscore hf hcontra.1 rfl)
      show findSplitFull dv fold pre (x :: ('_' :: (t :: ds ++ '.' :: e))) =
        some (pre ++ [x], t, ds, e)
      rw [findSplitFull_cons, hnone]
      have hiss : ¬ (x = '_' ∧ pre ≠ [] ∧
          (Option.isSome (none : Option (Char × PyStr × PyStr)) = true)) := by
        rintro ⟨-, -, hfalse⟩
        simp at hfalse
      rw [if_neg hiss]
      exact hstep
    | cons y a'' =>
      have hnone : matchTailFull dv fold
          ((y :: a'') ++ '_' :: t :: ds ++ '.' :: e) = none := by
        cases hmt : matchTailFull dv fold ((y :: a'') ++ '_' :: t :: ds ++ '.' :: e) with
        | none => rfl
        | some out =>
          obtain ⟨t', ds', e'⟩ := out
          exact absurd (by simp : '_' ∈ (y :: a'') ++ '_' :: t :: ds ++ '.' :: e)
            (matchTailFull_no_underscore hdv hf hmt)
      have hrec := ih (pre ++ [x]) (by simp) hcode hds hdig he
      show findSplitFull dv fold pre
          (x :: ((y :: a'') ++ '_' :: t :: ds ++ '.' :: e)) =
        some (pre ++ x :: y :: a'', t, ds, e)
      rw [findSplitFull_cons, hnone]
      have hiss : ¬ (x = '_' ∧ pre ≠ [] ∧
          (Option.isSome (none : Option (Char × PyStr × PyStr)) = true)) := by
        rintro ⟨-, -, hfalse⟩
        simp at hfalse
      rw [if_neg hiss, hrec]
      simp

/-- No part of a strict (newline-free) grammatical decomposition is a
newline. -/
theorem validNameFull_no_newline {dv : Char → Option Nat} {fold : Char → Char}
    (hdv : DigitTableAscii dv) (hf : FoldTableAscii fold)
    {al : PyStr} {t : Char} {ds e : PyStr}
    (hnl : ∀ c ∈ al, c ≠ '\n') (hcode : fold t ∈ typeCodes)
    (hdig : ∀ c ∈ ds, isUniDigit dv c) (he : e.map fold ∈ extOptions) :
    ¬ (al ++ '_' :: t :: ds ++ '.' :: e).any (· = '\n') := by
  simp only [List.any_eq_true, decide_eq_true_eq, not_exists]
  intro c hcpair
  obtain ⟨hc, hcn⟩ := hcpair
  subst hcn
  rcases List.mem_append.1 hc with h1 | h8
  · rcases List.mem_append.1 h1 with h2 | h3
    · exact hnl _ h2 rfl
    · rcases List.mem_cons.1 h3 with h4 | h5
      · exact absurd h4 (by decide)
      rcases List.mem_cons.1 h5 with h6 | h7
      · exact fold_code_ne_newline hf hcode h6.symm
      · exact (uniDigit_ne hdv (hdig _ h7)).2 rfl
  · rcases List.mem_cons.1 h8 with h9 | h10
    · exact absurd h9 (by decide)
    · exact (fold_ext_chars_ne hf he _ h10).2 rfl

/-- A list ending in `a` is its `dropLast` with `a` appended. -/
theorem eq_dropLast_append_of_getLast {l : PyStr} {a : Char}
    (h : l.getLast? = some a) : l = l.dropLast ++ [a] := by
  have hne : l ≠ [] := by
    intro he; subst he; simp at h
  have h2 := List.dropLast_concat_getLast hne
  have h3 : l.getLast hne = a := by
    rw [List.getLast?_eq_getLast l hne] at h
    exact Option.some.inj h
  rw [← h3, h2]

/-- The last element of a list is one of its members. -/
theorem mem_of_getLast?_eq {l : PyStr} {a : Char}
    (h : l.getLast? = some a) : a ∈ l := by
  rw [eq_dropLast_append_of_getLast h]
  simp

/-- A list with no newline does not end in one. -/
theorem no_newline_getLast {l : PyStr} (h : ¬ l.any (· = '\n')) :
    ¬ l.getLast? = some '\n' := by
  intro hl
  apply h
  simp only [List.any_eq_true, decide_eq_true_eq]
  exact ⟨'\n', mem_of_getLast?_eq hl, rfl⟩

/-- Soundness of the anchored match on the newline-stripped core. -/
theorem parseCoreFull_sound {dv : Char → Option Nat} {fold : Char → Char}
    {slower : Char → PyStr} {core : PyStr} {d : ParsedScan}
    (h : parseCoreFull dv fold slower core = some d) :
    ∃ al t ds e, ValidNameFull dv fold core al t ds e false ∧
      d = mkDescriptorFull dv slower al t ds e := by
  unfold parseCoreFull at h
  by_cases hnl : core.any (· = '\n')
  · rw [if_pos hnl] at h; exact absurd h (by simp)
  · rw [if_neg hnl] at h
    cases hfs : findSplitFull dv fold [] core with
    | none => rw [hfs] at h; exact absurd h (by simp)
    | some out =>
      obtain ⟨al, t, ds, e⟩ := out
      rw [hfs] at h
      simp only [Option.some.injEq] at h
      obtain ⟨mid, hal, hcs, hne, hcode, hds, hdig, he⟩ :=
        findSplitFull_sound core [] hfs
      simp only [List.nil_append] at hal
      subst hal
      refine ⟨al, t, ds, e, ⟨by exact hcs, hne, ?_, hcode, hds, hdig, he⟩, h.symm⟩
      intro c hc hcn
      subst hcn
      simp only [List.any_eq_true, decide_eq_true_eq, not_exists] at hnl
      exact hnl '\n' ⟨by rw [hcs]; simp [hc], rfl⟩

/-- Completeness of the anchored match on a newline-free grammatical
core. -/
theorem parseCoreFull_complete {dv : Char → Option Nat} {fold : Char → Char}
    (slower : Char → PyStr) (hdv : DigitTableAscii dv) (hf : FoldTableAscii fold)
    {al : PyStr} {t : Char} {ds e : PyStr}
    (hne : al ≠ []) (hnl : ∀ c ∈ al, c ≠ '\n') (hcode : fold t ∈ typeCodes)
    (hds : ds ≠ []) (hdig : ∀ c ∈ ds, isUniDigit dv c)
    (he : e.map fold ∈ extOptions) :
    parseCoreFull dv fold slower (al ++ '_' :: t :: ds ++ '.' :: e) =
      some (mkDescriptorFull dv slower al t ds e) := by
  unfold parseCoreFull
  rw [if_neg (validNameFull_no_newline hdv hf hnl hcode hdig he),
      findSplitFull_complete hdv hf al [] hne hcode hds hdig he]
  simp

/-- Soundness of the full-semantics parser: an accepted name decomposes
per the full grammar, with or without the one trailing newline `$` may
absorb, and the dict is built from the groups. -/
theorem parse_full_sound {dv : Char → Option Nat} {fold : Char → Char}
    {slower : Char → PyStr} {fname : PyStr} {d : ParsedScan}
    (h : parse_scanned_page_filename_full dv fold slower fname = some d) :
    ∃ al t ds e nl, ValidNameFull dv fold fname al t ds e nl ∧
      d = mkDescriptorFull dv slower al t ds e := by
  unfold parse_scanned_page_filename_full at h
  by_cases hlast : fname.getLast? = some '\n'
  · rw [if_pos hlast] at h
    obtain ⟨al, t, ds, e, hv, hd⟩ := parseCoreFull_sound h
    obtain ⟨hcs, hne, hnl, hcode, hds, hdig, he⟩ := hv
    refine ⟨al, t, ds, e, true, ⟨?_, hne, hnl, hcode, hds, hdig, he⟩, hd⟩
    have hdrop := eq_dropLast_append_of_getLast hlast
    rw [hcs] at hdrop
    rw [hdrop]
    simp
  · rw [if_neg hlast] at h
    obtain ⟨al, t, ds, e, hv, hd⟩ := parseCoreFull_sound h
    exact ⟨al, t, ds, e, false, hv, hd⟩

/-- Completeness of the full-semantics parser: every decomposition per
the full grammar, with or without the trailing newline, is accepted. -/
theorem parse_full_complete {dv : Char → Option Nat} {fold : Char → Char}
    (slower : Char → PyStr) (hdv : DigitTableAscii dv) (hf : FoldTableAscii fold)
    {fname al : PyStr} {t : Char} {ds e : PyStr} {nl : Bool}
    (hv : ValidNameFull dv fold fname al t ds e nl) :
    parse_scanned_page_filename_full dv fold slower fname =
      some (mkDescriptorFull dv slower al t ds e) := by
  obtain ⟨hfe, hne, hnl, hcode, hds, hdig, he⟩ := hv
  have hcore := parseCoreFull_complete slower hdv hf hne hnl hcode hds hdig he
  cases nl with
  | false =>
    have hfe' : fname = al ++ '_' :: t :: ds ++ '.' :: e := by simpa using hfe
    have hnoany := validNameFull_no_newline hdv hf hnl hcode hdig he
    have hlast : ¬ fname.getLast? = some '\n' := by
      rw [hfe']
      exact no_newline_getLast hnoany
    unfold parse_scanned_page_filename_full
    rw [if_neg hlast, hfe']
    exact hcore
  | true =>
    have hfe' : fname = (al ++ '_' :: t :: ds ++ '.' :: e) ++ ['\n'] := by
      rw [hfe]; simp
    have hlast : fname.getLast? = some '\n' := by
      rw [hfe']; exact List.getLast?_concat _
    unfold parse_scanned_page_filename_full
    rw [if_pos hlast, hfe', List.dropLast_concat]
    exact hcore

/-- C2: amended to CPython `re` semantics.  For every digit-value table
and IGNORECASE folding whose ASCII columns are correct — as the real
Unicode tables' are — `parse_scanned_page_filename` accepts exactly the
names that decompose per `SCAN_FILENAME_REGEX` read with Unicode digits
and Unicode case folding, followed by at most one trailing newline (`$`
matches just before a newline at the end of the string), and returns
`None` for every other name; on every accepted name the descriptor is
built from the groups of the decomposition, whose alias — unique, so an
alias containing underscores is never split naively — is the entire
prefix before the type-code+digits+extension suffix, the numeric page
number is `int()` of the digit run, and the raw page token is the
lowercased type code followed by the digits zero-padded to width 4. -/
theorem parse_scanned_page_filename_full_exact
    (dv : Char → Option Nat) (fold : Char → Char) (slower : Char → PyStr)
    (hdv : DigitTableAscii dv) (hf : FoldTableAscii fold) :
    (∀ fname d, parse_scanned_page_filename_full dv fold slower fname = some d →
      ∃ al t ds e nl, ValidNameFull dv fold fname al t ds e nl ∧
        d = mkDescriptorFull dv slower al t ds e) ∧
    (∀ fname al t ds e nl, ValidNameFull dv fold fname al t ds e nl →
      parse_scanned_page_filename_full dv fold slower fname =
        some (mkDescriptorFull dv slower al t ds e)) ∧
    (∀ fname al t ds e nl al' t' ds' e' nl',
      ValidNameFull dv fold fname al t ds e nl →
      ValidNameFull dv fold fname al' t' ds' e' nl' → al = al') := by
  refine ⟨fun _ _ h => parse_full_sound h,
          fun _ _ _ _ _ _ hv => parse_full_complete slower hdv hf hv, ?_⟩
  intro fname al t ds e nl al' t' ds' e' nl' h1 h2
  have e1 := parse_full_complete slower hdv hf h1
  have e2 := parse_full_complete slower hdv hf h2
  rw [e1] at e2
  have e3 := Option.some.inj e2
  simpa [mkDescriptorFull] using congrArg ParsedScan.alias' e3

/-- C2 witness: with the ASCII columns as concrete tables, a name whose
alias itself contains an underscore and which carries one trailing
newline is accepted, with the whole prefix as the alias. -/
theorem parse_scanned_page_filename_full_exact_witness :
    parse_scanned_page_filename_full asciiDv Char.toLower asciiSlower
        ("Moja_Ksiazka_s12.jpg\n".data) =
      some (mkDescriptorFull asciiDv asciiSlower "Moja_Ksiazka".data 's'
        "12".data "jpg".data) :=
  (parse_scanned_page_filename_full_exact asciiDv Char.toLower asciiSlower
    asciiDv_table toLower_fold_table).2.1
    ("Moja_Ksiazka_s12.jpg\n".data) "Moja_Ksiazka".data 's' "12".data "jpg".data
    true (by decide)

/-- Under every digit table and folding with correct ASCII columns — in
particular under the real Unicode tables — the code accepts the valid
name `Dobra_s0001.jpg` followed by one newline, because `$` matches just
before a newline at the end of the string. -/
theorem parse_full_accepts_trailing_newline
    {dv : Char → Option Nat} {fold : Char → Char} (slower : Char → PyStr)
    (hdv : DigitTableAscii dv) (hf : FoldTableAscii fold) :
    parse_scanned_page_filename_full dv fold slower ("Dobra_s0001.jpg\n".data) =
      some (mkDescriptorFull dv slower "Dobra".data 's' "0001".data "jpg".data) := by
  have hv : ValidNameFull dv fold ("Dobra_s0001.jpg\n".data) "Dobra".data 's'
      "0001".data "jpg".data true := by
    refine ⟨by decide, by decide, by decide, ?_, by decide, ?_, ?_⟩
    · rw [hf 's' (by decide)]; decide
    · have hall : ∀ c ∈ ("0001".data), isDigitChar c := by decide
      exact fun c hc => isUniDigit_of_ascii hdv (hall c hc)
    · rw [map_fold_ascii hf "jpg".data (by decide)]
      decide
  exact parse_full_complete slower hdv hf hv

/-- C2 counterexample: the program accepts the filename `Dobra_s0001.jpg`
followed by one newline — `$` of `SCAN_FILENAME_REGEX` matches just
before a newline at the end of the string — and returns for it the
descriptor of `Dobra_s0001.jpg`, although the name matches no
decomposition of the documented grammar and the grammar-exact parser
rejects it; so rejection (`None`) for every name outside the grammar
fails at this input. -/
theorem trailing_newline_name_accepted :
    parse_scanned_page_filename_full asciiDv Char.toLower asciiSlower
        ("Dobra_s0001.jpg\n".data) =
      some (mkDescriptor "Dobra".data 's' "0001".data "jpg".data) ∧
    parse_scanned_page_filename ("Dobra_s0001.jpg\n".data) = none := by
  refine ⟨?_, by decide⟩
  rw [parse_full_accepts_trailing_newline asciiSlower asciiDv_table
    toLower_fold_table]
  decide

/-- `int()` agrees with the ASCII reading on ASCII digit runs. -/
theorem natOfUniDigits_eq_ascii {dv : Char → Option Nat}
    (hdv : DigitTableAscii dv) :
    ∀ (ds : PyStr), (∀ c ∈ ds, isDigitChar c) →
      natOfUniDigits dv ds = natOfDigits ds := by
  have key : ∀ (ds : PyStr), (∀ c ∈ ds, isDigitChar c) → ∀ a : Nat,
      List.foldl (fun a c => 10 * a + (dv c).getD 0) a ds =
      List.foldl (fun a c => 10 * a + (c.toNat - 48)) a ds := by
    intro ds
    induction ds with
    | nil => intro _ a; rfl
    | cons c cs ih =>
      intro h a
      rw [List.foldl_cons, List.foldl_cons, hdv.1 c (h c (by simp))]
      exact ih (fun x hx => h x (by simp [hx])) _
  intro ds h
  exact key ds h 0

/-- `str.lower()` agrees with the ASCII reading on ASCII strings. -/
theorem flatMap_slower_ascii {slower : Char → PyStr}
    (hsl : LowerTableAscii slower) :
    ∀ (e : PyStr), (∀ c ∈ e, c.toNat < 128) →
      e.flatMap slower = e.map Char.toLower := by
  intro e
  induction e with
  | nil => intro _; rfl
  | cons c cs ih =>
    intro h
    rw [List.flatMap_cons, List.map_cons, hsl c (h c (by simp)),
        ih (fun x hx => h x (by simp [hx]))]
    rfl

/-- On an ASCII match the full-semantics dict coincides with the dict of
the ASCII reading: the two parsers agree wherever both accept. -/
theorem mkDescriptorFull_eq_ascii {dv : Char → Option Nat}
    {slower : Char → PyStr}
    (hdv : DigitTableAscii dv) (hsl : LowerTableAscii slower)
    (al : PyStr) (t : Char) (ds e : PyStr) (ht : t.toNat < 128)
    (hds : ∀ c ∈ ds, isDigitChar c) (he : ∀ c ∈ e, c.toNat < 128) :
    mkDescriptorFull dv slower al t ds e = mkDescriptor al t ds e := by
  unfold mkDescriptorFull mkDescriptor
  rw [hsl t ht, natOfUniDigits_eq_ascii hdv ds hds,
      flatMap_slower_ascii hsl e he]
  by_cases hw : Char.toLower t = 'w' <;> simp [hw]

/- C7: round trip. -/

/-- Zero-filling reaches at least the requested width. -/
theorem pyZfill_length_ge (w : Nat) (s : PyStr) : w ≤ (pyZfill w s).length := by
  unfold pyZfill
  by_cases hws : w ≤ s.length
  · rw [if_pos hws]; exact hws
  · rw [if_neg hws]; simp; omega

/-- Zero-filling is idempotent. -/
theorem pyZfill_idem (w : Nat) (s : PyStr) : pyZfill w (pyZfill w s) = pyZfill w s := by
  conv_lhs => rw [pyZfill]
  rw [if_pos (pyZfill_length_ge w s)]

/-- Zero-filling a non-empty string is non-empty. -/
theorem pyZfill_ne_nil {s : PyStr} (hs : s ≠ []) (w : Nat) : pyZfill w s ≠ [] := by
  unfold pyZfill
  by_cases hws : w ≤ s.length
  · rw [if_pos hws]; exact hs
  · rw [if_neg hws]; simp [hs]

/-- Zero-filling a digit run yields a digit run. -/
theorem pyZfill_digits {s : PyStr} (hdig : ∀ c ∈ s, isDigitChar c) (w : Nat) :
    ∀ c ∈ pyZfill w s, isDigitChar c := by
  intro c hc
  unfold pyZfill at hc
  by_cases hws : w ≤ s.length
  · rw [if_pos hws] at hc; exact hdig c hc
  · rw [if_neg hws] at hc
    rcases List.mem_append.1 hc with h1 | h2
    · rw [List.eq_of_mem_replicate h1]; decide
    · exact hdig c h2

/-- Leading zeros do not change the numeric value of a digit run. -/
theorem natOfDigits_zfill (w : Nat) (s : PyStr) :
    natOfDigits (pyZfill w s) = natOfDigits s := by
  unfold pyZfill
  by_cases hws : w ≤ s.length
  · rw [if_pos hws]
  · rw [if_neg hws]
    unfold natOfDigits
    rw [List.foldl_append]
    have hz : ∀ k, List.foldl (fun a c => 10 * a + (c.toNat - 48)) 0
        (List.replicate k '0') = 0 := by
      intro k
      induction k with
      | zero => rfl
      | succ n ih => rw [List.replicate_succ, List.foldl_cons]; simpa using ih
    rw [hz]

/-- C7: re-parsing the filename assembled from a well-formed page
descriptor (alias, underscore, raw page token, original extension) returns
the descriptor itself, for every type code in the fixed set, every
extension in the fixed set, and every positive page number. -/
theorem parse_scanned_page_filename_roundtrip
    (d : ParsedScan) (t : Char) (ds e : PyStr)
    (ha : d.alias' ≠ []) (hnl : ∀ c ∈ d.alias', c ≠ '\n')
    (ht : t ∈ typeCodes) (hts : d.page_type_short = [t])
    (he : e ∈ extOptions) (hext : d.original_extension = '.' :: e)
    (hds : ds ≠ []) (hdig : ∀ c ∈ ds, isDigitChar c)
    (hraw : d.page_raw_number_str = t :: pyZfill PAGE_NUMBER_PADDING ds)
    (hnum : d.page_number_numeric = natOfDigits ds)
    (hpos : 1 ≤ d.page_number_numeric)
    (hfull : d.page_type_full = dictGet PAGE_TYPE_MAPPING [t] "Nieznany".data)
    (hrom : d.roman_number = if t = 'w' then romanGet (natOfDigits ds) else []) :
    parse_scanned_page_filename
      (d.alias' ++ '_' :: d.page_raw_number_str ++ d.original_extension) = some d := by
  have hlt : Char.toLower t = t := typeCodes_lower_fixed t ht
  have hcode : Char.toLower t ∈ typeCodes := by rw [hlt]; exact ht
  have hel : e.map Char.toLower ∈ extOptions := by
    rw [extOptions_lower_fixed e he]; exact he
  have hv : ValidName
      (d.alias' ++ '_' :: t :: pyZfill PAGE_NUMBER_PADDING ds ++ '.' :: e)
      d.alias' t (pyZfill PAGE_NUMBER_PADDING ds) e :=
    ⟨rfl, ha, hnl, hcode, pyZfill_ne_nil hds _, pyZfill_digits hdig _, hel⟩
  have hp := parse_complete hv
  have hfn : d.alias' ++ '_' :: d.page_raw_number_str ++ d.original_extension =
      d.alias' ++ '_' :: t :: pyZfill PAGE_NUMBER_PADDING ds ++ '.' :: e := by
    rw [hraw, hext]
  rw [hfn, hp]
  have hdmk : mkDescriptor d.alias' t (pyZfill PAGE_NUMBER_PADDING ds) e = d := by
    obtain ⟨a0, raw0, ts0, tf0, n0, r0, e0⟩ := d
    simp only at hts hext hraw hnum hfull hrom ha hnl hpos
    subst hts hext hraw hnum hfull hrom
    simp [mkDescriptor, hlt, pyZfill_idem, natOfDigits_zfill,
      extOptions_lower_fixed e he]
  rw [hdmk]

/-- C7 witness: a concrete front-matter descriptor survives the round trip. -/
theorem parse_scanned_page_filename_roundtrip_witness :
    parse_scanned_page_filename "Kronika_w0004.png".data =
      some { alias' := "Kronika".data, page_raw_number_str := "w0004".data,
             page_type_short := "w".data, page_type_full := "Wstęp".data,
             page_number_numeric := 4, roman_number := "iv".data,
             original_extension := ".png".data } :=
  parse_scanned_page_filename_roundtrip
    { alias' := "Kronika".data, page_raw_number_str := "w0004".data,
      page_type_short := "w".data, page_type_full := "Wstęp".data,
      page_number_numeric := 4, roman_number := "iv".data,
      original_extension := ".png".data }
    'w' "4".data "png".data (by decide) (by decide) (by decide) (by decide)
    (by decide) (by decide) (by decide) (by decide) (by decide) (by decide)
    (by decide) (by decide) (by decide)

/- C9: the roman-numeral field. -/

/-- C9: on every accepted filename the roman-numeral field is exactly the
`roman_map` lookup of the numeric page number when the type code is the
front-matter code `w`, and empty otherwise; the lookup is empty outside the
keys 1 through 10; and parsing succeeds on every grammatical name, so an
out-of-table front-matter page number is not an error. -/
theorem roman_number_table_rule :
    (∀ fname d, parse_scanned_page_filename fname = some d →
      d.roman_number =
        (if d.page_type_short = "w".data then romanGet d.page_number_numeric
         else [])) ∧
    (∀ n, n = 0 ∨ 11 ≤ n → romanGet n = []) ∧
    (∀ fname al t ds e, ValidName fname al t ds e →
      (parse_scanned_page_filename fname).isSome = true) := by
  refine ⟨?_, ?_, ?_⟩
  · intro fname d h
    obtain ⟨al, t, ds, e, _, rfl⟩ := parse_sound h
    by_cases hw : Char.toLower t = 'w' <;> simp [mkDescriptor, hw]
  · intro n hn
    have hfind : roman_map.find? (fun kv => kv.1 == n) = none := by
      rw [List.find?_eq_none]
      intro kv hkv
      rcases hn with rfl | hge <;> fin_cases hkv <;> simp <;> omega
    simp [romanGet, hfind]
  · intro fname al t ds e hv
    rw [parse_complete hv]
    rfl

/-- C9 witness: a front-matter page numbered 123 parses with an empty
roman-numeral field. -/
theorem roman_number_table_rule_witness :
    (mkDescriptor "Xena".data 'w' "0123".data "tif".data).roman_number =
      (if (mkDescriptor "Xena".data 'w' "0123".data "tif".data).page_type_short =
          "w".data then
        romanGet (mkDescriptor "Xena".data 'w' "0123".data "tif".data).page_number_numeric
      else []) :=
  roman_number_table_rule.1 "Xena_w0123.tif".data _ (by decide)

/- C10: case folding of the grammar groups. -/

/-- Lowercasing a character that lowercases into the type-code set is
idempotent. -/
theorem toLower_idem_typeCodes {t : Char} (h : Char.toLower t ∈ typeCodes) :
    Char.toLower (Char.toLower t) = Char.toLower t := by
  simp only [typeCodes, List.mem_cons, List.not_mem_nil, or_false] at h
  rcases h with h | h | h | h | h | h | h | h | h | h <;> rw [h] <;> decide

/-- Lowercasing an extension that lowercases into the extension set is
idempotent. -/
theorem map_toLower_idem_ext {e : PyStr} (h : e.map Char.toLower ∈ extOptions) :
    (e.map Char.toLower).map Char.toLower = e.map Char.toLower := by
  simp only [extOptions, List.mem_cons, List.not_mem_nil, or_false] at h
  rcases h with h | h | h | h | h <;> rw [h] <;> decide

/-- The descriptor depends on the type code and extension only through
their lowercase forms. -/
theorem mkDescriptor_lower (al : PyStr) (t : Char) (ds e : PyStr)
    (hc : Char.toLower t ∈ typeCodes) (he : e.map Char.toLower ∈ extOptions) :
    mkDescriptor al t ds e =
      mkDescriptor al (Char.toLower t) ds (e.map Char.toLower) := by
  simp [mkDescriptor, toLower_idem_typeCodes hc, map_toLower_idem_ext he]

/-- C10: on every accepted filename the parser lowercases the page-type
code, the raw page token, and the extension of the returned dict, so two
grammatical names that differ only in the casing of the type code or the
extension parse to identical descriptors (and hence the same per-book scan
merge key `page_raw_number_str`); concretely, `Book_S0001.JPG` and
`Book_s0001.jpg` parse identically, and both are accepted. -/
theorem parse_scanned_page_filename_lowercases :
    (∀ fname al t ds e, ValidName fname al t ds e →
      parse_scanned_page_filename fname =
        some (mkDescriptor al (Char.toLower t) ds (e.map Char.toLower))) ∧
    (∀ fname1 fname2 al t1 t2 ds e1 e2, ValidName fname1 al t1 ds e1 →
      ValidName fname2 al t2 ds e2 → Char.toLower t1 = Char.toLower t2 →
      e1.map Char.toLower = e2.map Char.toLower →
      parse_scanned_page_filename fname1 = parse_scanned_page_filename fname2) ∧
    parse_scanned_page_filename "Book_S0001.JPG".data =
      parse_scanned_page_filename "Book_s0001.jpg".data ∧
    parse_scanned_page_filename "Book_s0001.jpg".data ≠ none := by
  refine ⟨?_, ?_, by decide, by decide⟩
  · intro fname al t ds e hv
    rw [parse_complete hv, mkDescriptor_lower al t ds e hv.2.2.2.1 hv.2.2.2.2.2.2]
  · intro fname1 fname2 al t1 t2 ds e1 e2 h1 h2 ht he
    rw [parse_complete h1, parse_complete h2,
      mkDescriptor_lower al t1 ds e1 h1.2.2.2.1 h1.2.2.2.2.2.2,
      mkDescriptor_lower al t2 ds e2 h2.2.2.2.1 h2.2.2.2.2.2.2, ht, he]

/-- C10 witness: an uppercase type code and extension parse to the same
descriptor as their lowercase form. -/
theorem parse_scanned_page_filename_lowercases_witness :
    parse_scanned_page_filename "Alma_I0007.TIF".data =
      parse_scanned_page_filename "Alma_i0007.tif".data :=
  parse_scanned_page_filename_lowercases.2.1 _ _ "Alma".data 'I' 'i'
    "0007".data "TIF".data "tif".data (by decide) (by decide) (by decide) (by decide)

/- C8: the timeline index. -/

/-- Lexicographic string comparison is irreflexive. -/
theorem pyStrLt_irrefl : ∀ s : PyStr, pyStrLt s s = false := by
  intro s
  induction s with
  | nil => rfl
  | cons a as ih => simp [pyStrLt, ih]

/-- Lexicographic string comparison is transitive. -/
theorem pyStrLt_trans : ∀ (a b c : PyStr),
    pyStrLt a b = true → pyStrLt b c = true → pyStrLt a c = true := by
  intro a
  induction a with
  | nil =>
    intro b c _ hbc
    cases c with
    | nil => cases b <;> simp [pyStrLt] at hbc
    | cons x xs => simp [pyStrLt]
  | cons a as ih =>
    intro b c hab hbc
    cases b with
    | nil => simp [pyStrLt] at hab
    | cons b bs =>
      cases c with
      | nil => simp [pyStrLt] at hbc
      | cons c cs =>
        simp only [pyStrLt] at hab hbc ⊢
        by_cases h1 : a = b
        · subst h1
          rw [if_pos rfl] at hab
          by_cases h2 : a = c
          · subst h2
            rw [if_pos rfl] at hbc ⊢
            exact ih bs cs hab hbc
          · rw [if_neg h2] at hbc ⊢
            exact hbc
        · rw [if_neg h1] at hab
          simp only [decide_eq_true_eq] at hab
          by_cases h2 : b = c
          · subst h2
            rw [if_neg h1]
            simp [hab]
          · rw [if_neg h2] at hbc
            simp only [decide_eq_true_eq] at hbc
            have hac : a.toNat < c.toNat := Nat.lt_trans hab hbc
            have hne : a ≠ c := fun he => by rw [he] at hac; omega
            rw [if_neg hne]
            simp [hac]

/-- Lexicographic string comparison is asymmetric. -/
theorem pyStrLt_asymm (a b : PyStr) (h : pyStrLt a b = true) :
    pyStrLt b a = false := by
  cases hba : pyStrLt b a with
  | false => rfl
  | true =>
    have := pyStrLt_trans a b a h hba
    rw [pyStrLt_irrefl] at this
    exact absurd this (by simp)

/-- Lexicographic string comparison is total. -/
theorem pyStrLt_total : ∀ a b : PyStr,
    pyStrLt a b = true ∨ a = b ∨ pyStrLt b a = true := by
  intro a
  induction a with
  | nil =>
    intro b
    cases b with
    | nil => exact Or.inr (Or.inl rfl)
    | cons x xs => exact Or.inl (by simp [pyStrLt])
  | cons a as ih =>
    intro b
    cases b with
    | nil => exact Or.inr (Or.inr (by simp [pyStrLt]))
    | cons b bs =>
      by_cases h : a = b
      · subst h
        rcases ih bs with h1 | h1 | h1
        · exact Or.inl (by simp [pyStrLt, h1])
        · exact Or.inr (Or.inl (by rw [h1]))
        · exact Or.inr (Or.inr (by simp [pyStrLt, h1]))
      · rcases Nat.lt_trichotomy a.toNat b.toNat with hlt | heq | hgt
        · exact Or.inl (by simp [pyStrLt, h, hlt])
        · exact absurd
            (Char.eq_of_val_eq (UInt32.eq_of_toBitVec_eq (BitVec.eq_of_toNat_eq heq))) h
        · exact Or.inr (Or.inr (by simp [pyStrLt, Ne.symm h, hgt]))

/-- Non-strict lexicographic comparison is transitive. -/
theorem pyStrLt_false_trans (a b c : PyStr) (hba : pyStrLt b a = false)
    (hcb : pyStrLt c b = false) : pyStrLt c a = false := by
  cases hca : pyStrLt c a with
  | false => rfl
  | true =>
    exfalso
    rcases pyStrLt_total a b with h1 | h1 | h1
    · have := pyStrLt_trans c a b hca h1
      rw [hcb] at this
      exact absurd this (by simp)
    · subst h1
      rw [hcb] at hca
      exact absurd hca (by simp)
    · rw [hba] at h1
      exact absurd h1 (by simp)

/-- Stable insertion permutes to consing. -/
theorem insertByKey_perm (key : α → PyStr) (x : α) (l : List α) :
    (insertByKey key x l).Perm (x :: l) := by
  induction l with
  | nil => exact List.Perm.refl _
  | cons y ys ih =>
    by_cases h : pyStrLt (key y) (key x)
    · simp only [insertByKey, if_pos h]
      exact (List.Perm.cons y ih).trans (List.Perm.swap x y ys)
    · simp only [insertByKey, if_neg h]
      exact List.Perm.refl _

/-- The stable sort permutes its input. -/
theorem pySortByKey_perm (key : α → PyStr) (l : List α) :
    (pySortByKey key l).Perm l := by
  induction l with
  | nil => exact List.Perm.refl _
  | cons x xs ih =>
    exact ((insertByKey_perm key x _).trans (List.Perm.cons x ih))

/-- Stable insertion preserves sortedness by key. -/
theorem insertByKey_pairwise (key : α → PyStr) (x : α) (l : List α)
    (hl : l.Pairwise (fun a b => pyStrLt (key b) (key a) = false)) :
    (insertByKey key x l).Pairwise (fun a b => pyStrLt (key b) (key a) = false) := by
  induction l with
  | nil => simp [insertByKey]
  | cons y ys ih =>
    rcases List.pairwise_cons.1 hl with ⟨hy, hys⟩
    by_cases h : pyStrLt (key y) (key x)
    · simp only [insertByKey, if_pos h]
      rw [List.pairwise_cons]
      refine ⟨?_, ih hys⟩
      intro z hz
      rcases List.mem_cons.1 ((insertByKey_perm key x ys).mem_iff.1 hz) with rfl | hz'
      · exact pyStrLt_asymm _ _ h
      · exact hy z hz'
    · simp only [insertByKey, if_neg h]
      rw [List.pairwise_cons]
      refine ⟨?_, hl⟩
      intro z hz
      rcases List.mem_cons.1 hz with rfl | hz'
      · cases hv : pyStrLt (key z) (key x) with
        | false => rfl
        | true => exact absurd hv h
      · exact pyStrLt_false_trans _ _ _
          (by cases hv : pyStrLt (key y) (key x) with
              | false => rfl
              | true => exact absurd hv h)
          (hy z hz')

/-- The stable sort is sorted by key. -/
theorem pySortByKey_pairwise (key : α → PyStr) (l : List α) :
    (pySortByKey key l).Pairwise (fun a b => pyStrLt (key b) (key a) = false) := by
  induction l with
  | nil => simp [pySortByKey]
  | cons x xs ih => exact insertByKey_pairwise key x _ ih

/-- Inserting an element with the observed key puts it before every stored
element with that key. -/
theorem insertByKey_filter_eq (key : α → PyStr) (x : α) (l : List α) {k : PyStr}
    (hx : key x = k) :
    (insertByKey key x l).filter (fun y => decide (key y = k)) =
      x :: l.filter (fun y => decide (key y = k)) := by
  induction l with
  | nil => simp [insertByKey, hx]
  | cons y ys ih =>
    by_cases h : pyStrLt (key y) (key x)
    · simp only [insertByKey, if_pos h]
      have hy : ¬ key y = k := by
        intro he
        rw [he.trans hx.symm, pyStrLt_irrefl] at h
        exact absurd h (by simp)
      rw [List.filter_cons_of_neg (by simp [hy]), ih,
        List.filter_cons_of_neg (by simp [hy])]
    · simp only [insertByKey, if_neg h]
      rw [List.filter_cons_of_pos (by simp [hx])]

/-- Inserting an element with a different key leaves the key's subsequence
unchanged. -/
theorem insertByKey_filter_ne (key : α → PyStr) (x : α) (l : List α) {k : PyStr}
    (hx : ¬ key x = k) :
    (insertByKey key x l).filter (fun y => decide (key y = k)) =
      l.filter (fun y => decide (key y = k)) := by
  induction l with
  | nil => simp [insertByKey, hx]
  | cons y ys ih =>
    by_cases h : pyStrLt (key y) (key x)
    · simp only [insertByKey, if_pos h]
      by_cases hy : key y = k
      · rw [List.filter_cons_of_pos (by simp [hy]),
          List.filter_cons_of_pos (by simp [hy]), ih]
      · rw [List.filter_cons_of_neg (by simp [hy]),
          List.filter_cons_of_neg (by simp [hy]), ih]
    · simp only [insertByKey, if_neg h]
      rw [List.filter_cons_of_neg (by simp [hx])]

/-- Stability of the sort: for every key value, the subsequence of elements
carrying that key is exactly the input's subsequence (encounter order). -/
theorem pySortByKey_stable (key : α → PyStr) (l : List α) (k : PyStr) :
    (pySortByKey key l).filter (fun y => decide (key y = k)) =
      l.filter (fun y => decide (key y = k)) := by
  induction l with
  | nil => rfl
  | cons x xs ih =>
    show (insertByKey key x (pySortByKey key xs)).filter _ = _
    by_cases hx : key x = k
    · rw [insertByKey_filter_eq key x _ hx, ih,
        List.filter_cons_of_pos (by simp [hx])]
    · rw [insertByKey_filter_ne key x _ hx, ih,
        List.filter_cons_of_neg (by simp [hx])]

/-- Entries collected by the indexer all carry a non-empty parsed date. -/
theorem collectEntries_date_ne_nil {books : List BookFolder} {x : TimelineEntry}
    (h : x ∈ collectEntries books) : x.date_parsed ≠ [] := by
  obtain ⟨b, _, hx⟩ := List.mem_flatMap.1 h
  obtain ⟨s, _, hx2⟩ := List.mem_flatMap.1 hx
  obtain ⟨dt, _, heq⟩ := List.mem_filterMap.1 hx2
  by_cases hnil : dt.parsed.getD [] = []
  · rw [if_pos hnil] at heq; exact absurd heq (by simp)
  · rw [if_neg hnil] at heq
    simp only [Option.some.injEq] at heq
    rw [← heq]
    exact hnil

/-- C8: `build_date_index` emits one timeline entry per dated mention of
every scan of every aggregate (the output is a permutation of the encounter
-order emission, which skips mentions with no parseable date), sorted by
parsed date ascending; the sort is stable, so for every date value the
entries carrying it keep their encounter order (aggregate order, then scan
order, then mention order); on the three-aggregate example with mentions
dated 1945, 1920 and 1989 the index is returned in the order 1920, 1945,
1989. -/
theorem build_date_index_sorted_stable :
    (∀ books, (build_date_index books).Perm (collectEntries books)) ∧
    (∀ books, (build_date_index books).Pairwise
      (fun a b => pyStrLt b.date_parsed a.date_parsed = false)) ∧
    (∀ books k, (build_date_index books).filter
        (fun x => decide (x.date_parsed = k)) =
      (collectEntries books).filter (fun x => decide (x.date_parsed = k))) ∧
    (∀ books x, x ∈ build_date_index books → x.date_parsed ≠ []) ∧
    (build_date_index timelineExampleBooks).map (fun x => x.date_parsed) =
      ["1920".data, "1945".data, "1989".data] := by
  refine ⟨?_, ?_, ?_, ?_, by decide⟩
  · intro books; exact pySortByKey_perm _ _
  · intro books; exact pySortByKey_pairwise _ _
  · intro books k; exact pySortByKey_stable _ _ k
  · intro books x hx
    exact collectEntries_date_ne_nil ((pySortByKey_perm _ _).mem_iff.1 hx)

/-- C8 witness: the 1920 entry of the example index carries a non-empty
parsed date. -/
theorem build_date_index_sorted_stable_witness :
    ({ date_parsed := "1920".data, date_text := "1920".data,
       book_hash := "bbbbbbbbbbbb".data, book_title := "Druga".data,
       book_author := "B".data, scan_path := "p2.jpg".data,
       ocr_snippet := ("pokoj 1920".data.take 80 ++ "...".data) } :
        TimelineEntry).date_parsed ≠ [] :=
  build_date_index_sorted_stable.2.2.2.1 timelineExampleBooks _ (by decide)

/- C3, C6: the store upsert. -/

/-- Updating the first match leaves a list without matches unchanged. -/
theorem updateFirst_of_not {p : α → Prop} [DecidablePred p] {f : α → α}
    {l : List α} (h : ∀ x ∈ l, ¬ p x) : updateFirst p f l = l := by
  induction l with
  | nil => rfl
  | cons x xs ih =>
    rw [updateFirst, if_neg (h x (by simp)), ih (fun y hy => h y (by simp [hy]))]

/-- Updating the first match skips a match-free prefix. -/
theorem updateFirst_append_not {p : α → Prop} [DecidablePred p] {f : α → α}
    {l1 : List α} (l2 : List α) (h : ∀ x ∈ l1, ¬ p x) :
    updateFirst p f (l1 ++ l2) = l1 ++ updateFirst p f l2 := by
  induction l1 with
  | nil => rfl
  | cons x xs ih =>
    rw [List.cons_append, updateFirst, if_neg (h x (by simp)),
      ih (fun y hy => h y (by simp [hy])), List.cons_append]

/-- Updating the first match fires on a matching head. -/
theorem updateFirst_cons_pos {p : α → Prop} [DecidablePred p] {f : α → α}
    {x : α} (l : List α) (h : p x) : updateFirst p f (x :: l) = f x :: l := by
  rw [updateFirst, if_pos h]

/-- A projection preserved by the update on matches is preserved by
`updateFirst`. -/
theorem updateFirst_map {p : α → Prop} [DecidablePred p] {f : α → α}
    (g : α → β) (hg : ∀ x, p x → g (f x) = g x) (l : List α) :
    (updateFirst p f l).map g = l.map g := by
  induction l with
  | nil => rfl
  | cons x xs ih =>
    by_cases hx : p x
    · rw [updateFirst_cons_pos _ hx, List.map_cons, List.map_cons, hg x hx]
    · rw [updateFirst, if_neg hx, List.map_cons, List.map_cons, ih]

/-- First-occurrence decomposition of a list with a match. -/
theorem exists_first_split {p : α → Prop} [DecidablePred p] {l : List α}
    (h : ∃ x ∈ l, p x) :
    ∃ l1 d l2, l = l1 ++ d :: l2 ∧ p d ∧ ∀ x ∈ l1, ¬ p x := by
  induction l with
  | nil => simp at h
  | cons y ys ih =>
    by_cases hy : p y
    · exact ⟨[], y, ys, rfl, hy, by simp⟩
    · obtain ⟨x, hx, hpx⟩ := h
      rcases List.mem_cons.1 hx with rfl | hx'
      · exact absurd hpx hy
      · obtain ⟨l1, d, l2, heq, hd, hl1⟩ := ih ⟨x, hx', hpx⟩
        exact ⟨y :: l1, d, l2, by rw [heq, List.cons_append], hd,
          fun z hz => by
            rcases List.mem_cons.1 hz with rfl | hz'
            · exact hy
            · exact hl1 z hz'⟩

/-- A document with a different hash never matches the scan filter. -/
theorem not_hasScanTok_of_hash {h tok : PyStr} {d : BookDoc}
    (hd : d.book_hash ≠ h) : ¬ hasScanTok h tok d := fun hc => hd hc.1

/-- A document without the token never matches the scan filter. -/
theorem not_hasScanTok_of_tok {h tok : PyStr} {d : BookDoc}
    (hd : ∀ s ∈ d.scans, s.page_raw_number_str ≠ tok) : ¬ hasScanTok h tok d :=
  fun hc => by obtain ⟨s, hs, hstok⟩ := hc.2; exact hd s hs hstok

/-- The book step inserts a fresh document when no hash matches. -/
theorem upsertBookStep_insert {meta : BookMeta} {h : PyStr} {now : Nat}
    {col : List BookDoc} (hno : ∀ x ∈ col, x.book_hash ≠ h) :
    upsertBookStep meta h now col = col ++ [newBookDoc meta h now] := by
  rw [upsertBookStep, if_neg (fun hex => by
    obtain ⟨d, hd, hdh⟩ := hex
    exact hno d hd hdh)]

/-- The book step rewrites the fields of the first document with the hash. -/
theorem upsertBookStep_update {meta : BookMeta} {h : PyStr} {now : Nat}
    {l1 l2 : List BookDoc} {d : BookDoc} (hd : d.book_hash = h)
    (hl1 : ∀ x ∈ l1, x.book_hash ≠ h) :
    upsertBookStep meta h now (l1 ++ d :: l2) =
      l1 ++ setBookFields meta h now d :: l2 := by
  rw [upsertBookStep, if_pos ⟨d, by simp, hd⟩,
    updateFirst_append_not (p := fun x : BookDoc => x.book_hash = h) _ hl1,
    updateFirst_cons_pos (p := fun x : BookDoc => x.book_hash = h) _ hd]

/-- The scan step pushes the record onto the first document with the hash
when no document holds the token. -/
theorem upsertScanStep_push (h : PyStr) (sr : ScanRecord)
    (l1 l2 : List BookDoc) (d1 : BookDoc) (hd : d1.book_hash = h)
    (hl1 : ∀ x ∈ l1, x.book_hash ≠ h)
    (hnotok : ∀ x ∈ l1 ++ d1 :: l2, ¬ hasScanTok h sr.page_raw_number_str x) :
    upsertScanStep h sr (l1 ++ d1 :: l2) =
      l1 ++ { d1 with scans := d1.scans ++ [sr] } :: l2 := by
  rw [upsertScanStep]
  simp only [updateFirst_of_not hnotok, if_pos rfl, if_true]
  rw [updateFirst_append_not (p := fun x : BookDoc => x.book_hash = h) _ hl1,
    updateFirst_cons_pos (p := fun x : BookDoc => x.book_hash = h) _ hd]

/-- The scan step replaces the first token-carrying scan of the first
document matching hash and token, when the replacement changes the
document. -/
theorem upsertScanStep_replace {h : PyStr} {sr : ScanRecord}
    {l1 l2 : List BookDoc} {d1 : BookDoc}
    (hl1 : ∀ x ∈ l1, ¬ hasScanTok h sr.page_raw_number_str x)
    (hd : hasScanTok h sr.page_raw_number_str d1)
    (hne : replaceScanTok sr.page_raw_number_str sr d1 ≠ d1) :
    upsertScanStep h sr (l1 ++ d1 :: l2) =
      l1 ++ replaceScanTok sr.page_raw_number_str sr d1 :: l2 := by
  rw [upsertScanStep]
  simp only [updateFirst_append_not (p := hasScanTok h sr.page_raw_number_str) _ hl1,
    updateFirst_cons_pos (p := hasScanTok h sr.page_raw_number_str) _ hd]
  rw [if_neg (fun heq => hne (by
    have h2 := List.append_cancel_left heq
    simp only [List.cons.injEq] at h2
    exact h2.1))]

/-- Replacement rewrites the first scan carrying the token. -/
theorem replaceScanTok_split {tok : PyStr} {sr : ScanRecord} {d : BookDoc}
    {s1 : List ScanRecord} {s0 : ScanRecord} {s2 : List ScanRecord}
    (hscans : d.scans = s1 ++ s0 :: s2)
    (hs0 : s0.page_raw_number_str = tok)
    (hs1 : ∀ x ∈ s1, x.page_raw_number_str ≠ tok) :
    replaceScanTok tok sr d = { d with scans := s1 ++ sr :: s2 } := by
  rw [replaceScanTok, hscans,
    updateFirst_append_not (p := fun x : ScanRecord => x.page_raw_number_str = tok) _ hs1,
    updateFirst_cons_pos (p := fun x : ScanRecord => x.page_raw_number_str = tok) _ hs0]

/-- A full upsert against a state with no document for the hash appends a
fresh document holding the single scan. -/
theorem upsert_insert_case (nfd : PyStr → PyStr) (combining : Char → Bool)
    (meta : BookMeta) (scan : ScanPayload) (now : Nat) {col : List BookDoc}
    (hno : ∀ x ∈ col, x.book_hash ≠ generate_book_hash nfd combining meta) :
    upsert_book_and_scan nfd combining meta scan now col =
      col ++ [{ newBookDoc meta (generate_book_hash nfd combining meta) now with
                scans := [mkScanRecord scan now] }] := by
  rw [upsert_book_and_scan, upsertBookStep_insert hno]
  rw [upsertScanStep_push (generate_book_hash nfd combining meta)
    (mkScanRecord scan now) col []
    (newBookDoc meta (generate_book_hash nfd combining meta) now)
    rfl hno ?hnotok]
  case hnotok =>
    intro x hx
    rcases List.mem_append.1 hx with hx1 | hx2
    · exact not_hasScanTok_of_hash (hno x hx1)
    · rcases List.mem_cons.1 hx2 with rfl | hx3
      · exact not_hasScanTok_of_tok (fun s hs => absurd hs (by
          simp [newBookDoc, setBookFields]))
      · exact absurd hx3 (by simp)
  rfl

/-- A full upsert against a state whose first hash-document holds no scan
with the token rewrites its fields and appends the scan. -/
theorem upsert_update_push_case (nfd : PyStr → PyStr) (combining : Char → Bool)
    (meta : BookMeta) (scan : ScanPayload) (now : Nat)
    {l1 l2 : List BookDoc} {d : BookDoc}
    (hd : d.book_hash = generate_book_hash nfd combining meta)
    (hl1 : ∀ x ∈ l1, x.book_hash ≠ generate_book_hash nfd combining meta)
    (hl2 : ∀ x ∈ l2, x.book_hash ≠ generate_book_hash nfd combining meta)
    (hds : ∀ s ∈ d.scans, s.page_raw_number_str ≠ scan.page_raw_number_str) :
    upsert_book_and_scan nfd combining meta scan now (l1 ++ d :: l2) =
      l1 ++ { setBookFields meta (generate_book_hash nfd combining meta) now d with
              scans := d.scans ++ [mkScanRecord scan now] } :: l2 := by
  rw [upsert_book_and_scan, upsertBookStep_update hd hl1]
  rw [upsertScanStep_push (generate_book_hash nfd combining meta)
    (mkScanRecord scan now) l1 l2
    (setBookFields meta (generate_book_hash nfd combining meta) now d)
    rfl hl1 ?hnotok]
  case hnotok =>
    intro x hx
    rcases List.mem_append.1 hx with hx1 | hx2
    · exact not_hasScanTok_of_hash (hl1 x hx1)
    · rcases List.mem_cons.1 hx2 with rfl | hx3
      · exact not_hasScanTok_of_tok (fun s hs => hds s hs)
      · exact not_hasScanTok_of_hash (hl2 x hx3)
  rfl

/-- A full upsert against a state whose first hash-document already holds a
scan with the token rewrites its fields and replaces that scan in place,
provided the stored scan differs from the incoming record. -/
theorem upsert_update_replace_case (nfd : PyStr → PyStr) (combining : Char → Bool)
    (meta : BookMeta) (scan : ScanPayload) (now : Nat)
    {l1 l2 : List BookDoc} {d : BookDoc}
    (hd : d.book_hash = generate_book_hash nfd combining meta)
    (hl1 : ∀ x ∈ l1, x.book_hash ≠ generate_book_hash nfd combining meta)
    {s1v : List ScanRecord} {s0 : ScanRecord} {s2v : List ScanRecord}
    (hscans : d.scans = s1v ++ s0 :: s2v)
    (hs0 : s0.page_raw_number_str = scan.page_raw_number_str)
    (hs1 : ∀ x ∈ s1v, x.page_raw_number_str ≠ scan.page_raw_number_str)
    (hsne : s0 ≠ mkScanRecord scan now) :
    upsert_book_and_scan nfd combining meta scan now (l1 ++ d :: l2) =
      l1 ++ { setBookFields meta (generate_book_hash nfd combining meta) now d with
              scans := s1v ++ mkScanRecord scan now :: s2v } :: l2 := by
  rw [upsert_book_and_scan, upsertBookStep_update hd hl1]
  have hrepl : replaceScanTok (mkScanRecord scan now).page_raw_number_str
      (mkScanRecord scan now)
      (setBookFields meta (generate_book_hash nfd combining meta) now d) =
      { setBookFields meta (generate_book_hash nfd combining meta) now d with
        scans := s1v ++ mkScanRecord scan now :: s2v } :=
    replaceScanTok_split (by rw [setBookFields]; exact hscans) hs0 hs1
  rw [upsertScanStep_replace (fun x hx => not_hasScanTok_of_hash (hl1 x hx))
    ⟨rfl, s0, by rw [setBookFields]; rw [hscans]; simp, hs0⟩ ?hne, hrepl]
  case hne =>
    rw [hrepl]
    intro heq
    have h2 := congrArg BookDoc.scans heq
    simp only [setBookFields] at h2
    rw [hscans] at h2
    have h3 := List.append_cancel_left h2
    simp only [List.cons.injEq] at h3
    exact hsne h3.1.symm

/-- Shape of the state after one upsert on a well-formed collection whose
stamps precede the call: there is exactly one document for the hash; its
fields are the call's metadata; its scans hold exactly one record for the
token, namely the call's scan stamped `now`. -/
theorem upsert_shape (nfd : PyStr → PyStr) (combining : Char → Bool)
    (meta : BookMeta) (scan : ScanPayload) (t1 : Nat) (col : List BookDoc)
    (hwf : WFCollection col) (hst : StampsBelow t1 col) :
    ∃ L1 C S1v S2v L2,
      upsert_book_and_scan nfd combining meta scan t1 col =
        L1 ++ { setBookFields meta (generate_book_hash nfd combining meta) t1 C with
                scans := S1v ++ mkScanRecord scan t1 :: S2v } :: L2 ∧
      (∀ x ∈ L1, x.book_hash ≠ generate_book_hash nfd combining meta) ∧
      (∀ x ∈ L2, x.book_hash ≠ generate_book_hash nfd combining meta) ∧
      (∀ x ∈ S1v, x.page_raw_number_str ≠ scan.page_raw_number_str) ∧
      (∀ x ∈ S2v, x.page_raw_number_str ≠ scan.page_raw_number_str) := by
  by_cases hex : ∃ d ∈ col, d.book_hash = generate_book_hash nfd combining meta
  · obtain ⟨l1, d, l2, rfl, hd, hl1⟩ :=
      exists_first_split (p := fun x : BookDoc =>
        x.book_hash = generate_book_hash nfd combining meta) hex
    have hl2 : ∀ x ∈ l2, x.book_hash ≠ generate_book_hash nfd combining meta := by
      have hp := hwf.1
      rw [List.pairwise_append] at hp
      intro x hx he
      exact (List.pairwise_cons.1 hp.2.1).1 x hx (hd.trans he.symm)
    by_cases htok : ∃ s ∈ d.scans,
        s.page_raw_number_str = scan.page_raw_number_str
    · obtain ⟨s1v, s0, s2v, hscans, hs0, hs1⟩ :=
        exists_first_split (p := fun x : ScanRecord =>
          x.page_raw_number_str = scan.page_raw_number_str) htok
      have hs2 : ∀ x ∈ s2v, x.page_raw_number_str ≠ scan.page_raw_number_str := by
        have hp := hwf.2 d (by simp)
        rw [hscans, List.pairwise_append] at hp
        intro x hx he
        exact (List.pairwise_cons.1 hp.2.1).1 x hx (hs0.trans he.symm)
      have hsne : s0 ≠ mkScanRecord scan t1 := by
        intro he
        have hlt := hst d (by simp) s0 (by rw [hscans]; simp)
        rw [he] at hlt
        simp [mkScanRecord] at hlt
      exact ⟨l1, d, s1v, s2v, l2,
        upsert_update_replace_case nfd combining meta scan t1 hd hl1 hscans hs0 hs1 hsne,
        hl1, hl2, hs1, hs2⟩
    · have hds : ∀ s ∈ d.scans, s.page_raw_number_str ≠ scan.page_raw_number_str :=
        fun s hs he => htok ⟨s, hs, he⟩
      exact ⟨l1, d, d.scans, [], l2,
        upsert_update_push_case nfd combining meta scan t1 hd hl1 hl2 hds,
        hl1, hl2, hds, by simp⟩
  · have hno : ∀ x ∈ col, x.book_hash ≠ generate_book_hash nfd combining meta :=
      fun x hx he => hex ⟨x, hx, he⟩
    refine ⟨col,
      { book_hash := generate_book_hash nfd combining meta, title := [],
        authors := [], year := [], pub_place := [], publisher := [],
        num_pages := none, notes := [], keywords := [], maps_present := false,
        illustrations_present := false, tables_present := false,
        created_at := t1, last_updated_book_at := t1, scans := [] },
      [], [], [], ?_, hno, by simp, by simp, by simp⟩
    rw [upsert_insert_case nfd combining meta scan t1 hno]
    rfl

/-- C3: on a well-formed collection whose stamps precede the first call,
applying `upsert_book_and_scan` twice with the same metadata and scan
payload yields the same collection as applying it once, except that the
book's update stamp and the scan's `processed_at` stamp advance to the
second call's time; and afterwards the aggregate's scan collection holds
exactly one entry keyed by the payload's raw-page token, carrying the
second call's field values. -/
theorem upsert_book_and_scan_idempotent
    (nfd : PyStr → PyStr) (combining : Char → Bool) (meta : BookMeta)
    (scan : ScanPayload) (t1 t2 : Nat) (col : List BookDoc)
    (hwf : WFCollection col) (hst : StampsBelow t1 col) (ht : t1 < t2) :
    upsert_book_and_scan nfd combining meta scan t2
        (upsert_book_and_scan nfd combining meta scan t1 col) =
      advance_timestamps (generate_book_hash nfd combining meta)
        scan.page_raw_number_str t2
        (upsert_book_and_scan nfd combining meta scan t1 col) ∧
    ∀ d ∈ upsert_book_and_scan nfd combining meta scan t2
        (upsert_book_and_scan nfd combining meta scan t1 col),
      d.book_hash = generate_book_hash nfd combining meta →
      d.scans.filter
          (fun s => decide (s.page_raw_number_str = scan.page_raw_number_str)) =
        [mkScanRecord scan t2] := by
  obtain ⟨L1, C, S1v, S2v, L2, hs1eq, hL1, hL2, hS1, hS2⟩ :=
    upsert_shape nfd combining meta scan t1 col hwf hst
  have hne12 : mkScanRecord scan t1 ≠ mkScanRecord scan t2 := by
    intro he
    have h2 := congrArg ScanRecord.processed_at he
    simp only [mkScanRecord] at h2
    omega
  have hs2eq :
      upsert_book_and_scan nfd combining meta scan t2
        (upsert_book_and_scan nfd combining meta scan t1 col) =
      L1 ++ { setBookFields meta (generate_book_hash nfd combining meta) t2
                { setBookFields meta (generate_book_hash nfd combining meta) t1 C with
                  scans := S1v ++ mkScanRecord scan t1 :: S2v } with
              scans := S1v ++ mkScanRecord scan t2 :: S2v } :: L2 := by
    rw [hs1eq]
    exact upsert_update_replace_case nfd combining meta scan t2
      (d := { setBookFields meta (generate_book_hash nfd combining meta) t1 C with
              scans := S1v ++ mkScanRecord scan t1 :: S2v })
      rfl hL1 rfl rfl hS1 hne12
  constructor
  · rw [hs2eq, hs1eq, advance_timestamps]
    rw [updateFirst_append_not
      (p := fun x : BookDoc => x.book_hash = generate_book_hash nfd combining meta)
      _ (fun x hx => hL1 x hx)]
    rw [updateFirst_cons_pos
      (p := fun x : BookDoc => x.book_hash = generate_book_hash nfd combining meta)
      _ rfl]
    have hscanupd : updateFirst
        (fun s : ScanRecord => s.page_raw_number_str = scan.page_raw_number_str)
        (fun s => { s with processed_at := t2 })
        (S1v ++ mkScanRecord scan t1 :: S2v) =
        S1v ++ mkScanRecord scan t2 :: S2v := by
      rw [updateFirst_append_not
        (p := fun s : ScanRecord => s.page_raw_number_str = scan.page_raw_number_str)
        _ hS1,
        updateFirst_cons_pos
        (p := fun s : ScanRecord => s.page_raw_number_str = scan.page_raw_number_str)
        _ rfl]
      simp [mkScanRecord]
    obtain ⟨cb, ct, ca, cy, cp, cpub, cnp, cn, ck, cm, ci, cta, ccr, clu, csc⟩ := C
    simp [setBookFields, hscanupd]
  · intro d hd hdh
    rw [hs2eq] at hd
    rcases List.mem_append.1 hd with hd1 | hd2
    · exact absurd hdh (hL1 d hd1)
    rcases List.mem_cons.1 hd2 with rfl | hd3
    · show (S1v ++ mkScanRecord scan t2 :: S2v).filter
        (fun s => decide (s.page_raw_number_str = scan.page_raw_number_str)) = _
      rw [List.filter_append, List.filter_cons_of_pos (by simp [mkScanRecord]),
        List.filter_eq_nil_iff.mpr (fun x hx => by simp [hS1 x hx]),
        List.filter_eq_nil_iff.mpr (fun x hx => by simp [hS2 x hx])]
      rfl
    · exact absurd hdh (hL2 d hd3)

/-- C3 witness: two upserts of the same book and scan against the empty
store, at times 0 and 1. -/
theorem upsert_book_and_scan_idempotent_witness :
    (upsert_book_and_scan id (fun _ => false) exampleMeta exampleScan 1
        (upsert_book_and_scan id (fun _ => false) exampleMeta exampleScan 0 []) =
      advance_timestamps (generate_book_hash id (fun _ => false) exampleMeta)
        exampleScan.page_raw_number_str 1
        (upsert_book_and_scan id (fun _ => false) exampleMeta exampleScan 0 [])) ∧
    ∀ d ∈ upsert_book_and_scan id (fun _ => false) exampleMeta exampleScan 1
        (upsert_book_and_scan id (fun _ => false) exampleMeta exampleScan 0 []),
      d.book_hash = generate_book_hash id (fun _ => false) exampleMeta →
      d.scans.filter
          (fun s =>
            decide (s.page_raw_number_str = exampleScan.page_raw_number_str)) =
        [mkScanRecord exampleScan 1] :=
  upsert_book_and_scan_idempotent id (fun _ => false) exampleMeta exampleScan 0 1 []
    ⟨List.Pairwise.nil, fun d hd => absurd hd (by simp)⟩
    (fun d hd => absurd hd (by simp)) (by decide)

/-- The scan step only rewrites the scans array of the first document with
the hash. -/
theorem upsertScanStep_shape (h : PyStr) (sr : ScanRecord)
    (l1 l2 : List BookDoc) (d1 : BookDoc)
    (hd : d1.book_hash = h) (hl1 : ∀ x ∈ l1, x.book_hash ≠ h)
    (hl2 : ∀ x ∈ l2, x.book_hash ≠ h) :
    ∃ Sc, upsertScanStep h sr (l1 ++ d1 :: l2) =
      l1 ++ { d1 with scans := Sc } :: l2 := by
  rw [upsertScanStep]
  have hl1' : ∀ x ∈ l1, ¬ hasScanTok h sr.page_raw_number_str x :=
    fun x hx => not_hasScanTok_of_hash (hl1 x hx)
  by_cases hd1 : hasScanTok h sr.page_raw_number_str d1
  · rw [updateFirst_append_not (p := hasScanTok h sr.page_raw_number_str) _ hl1',
      updateFirst_cons_pos (p := hasScanTok h sr.page_raw_number_str) _ hd1]
    by_cases heq :
        l1 ++ replaceScanTok sr.page_raw_number_str sr d1 :: l2 = l1 ++ d1 :: l2
    · rw [if_pos heq,
        updateFirst_append_not (p := fun x : BookDoc => x.book_hash = h) _ hl1,
        updateFirst_cons_pos (p := fun x : BookDoc => x.book_hash = h) _ hd]
      exact ⟨d1.scans ++ [sr], rfl⟩
    · rw [if_neg heq]
      exact ⟨updateFirst (fun s => s.page_raw_number_str = sr.page_raw_number_str)
        (fun _ => sr) d1.scans, rfl⟩
  · have hupd : updateFirst (hasScanTok h sr.page_raw_number_str)
        (replaceScanTok sr.page_raw_number_str sr) (l1 ++ d1 :: l2) =
        l1 ++ d1 :: l2 :=
      updateFirst_of_not (fun x hx => by
        rcases List.mem_append.1 hx with h1 | h2
        · exact hl1' x h1
        · rcases List.mem_cons.1 h2 with rfl | h3
          · exact hd1
          · exact not_hasScanTok_of_hash (hl2 x h3))
    rw [hupd, if_pos rfl,
      updateFirst_append_not (p := fun x : BookDoc => x.book_hash = h) _ hl1,
      updateFirst_cons_pos (p := fun x : BookDoc => x.book_hash = h) _ hd]
    exact ⟨d1.scans ++ [sr], rfl⟩

/-- C6: a book aggregate's identity is fixed once derived.  First, an
upsert never changes the `book_hash` of any stored document: the hash
sequence of the collection is preserved, with the freshly derived identity
appended only when no aggregate carried it.  Second, an upsert whose
metadata resolves to an existing aggregate's identity updates that same
aggregate's metadata fields in place, last writer wins, while its
`book_hash` and `created_at` stay exactly as first derived. -/
theorem book_identity_fixed :
    (∀ (nfd : PyStr → PyStr) (combining : Char → Bool) (meta : BookMeta)
        (scan : ScanPayload) (now : Nat) (col : List BookDoc),
      (upsert_book_and_scan nfd combining meta scan now col).map
          (fun d => d.book_hash) =
        col.map (fun d => d.book_hash) ++
          (if ∃ d ∈ col, d.book_hash = generate_book_hash nfd combining meta
           then [] else [generate_book_hash nfd combining meta])) ∧
    (∀ (nfd : PyStr → PyStr) (combining : Char → Bool) (meta : BookMeta)
        (scan : ScanPayload) (now : Nat) (l1 : List BookDoc) (d : BookDoc)
        (l2 : List BookDoc),
      d.book_hash = generate_book_hash nfd combining meta →
      (∀ x ∈ l1, x.book_hash ≠ generate_book_hash nfd combining meta) →
      (∀ x ∈ l2, x.book_hash ≠ generate_book_hash nfd combining meta) →
      ∃ D, upsert_book_and_scan nfd combining meta scan now (l1 ++ d :: l2) =
          l1 ++ D :: l2 ∧
        D.book_hash = d.book_hash ∧ D.created_at = d.created_at ∧
        D.title = meta.title ∧ D.authors = meta.authors ∧ D.year = meta.year ∧
        D.pub_place = meta.pub_place ∧ D.publisher = meta.publisher ∧
        D.num_pages = meta.num_pages ∧ D.notes = meta.notes ∧
        D.keywords = meta.keywords ∧ D.maps_present = meta.maps_present ∧
        D.illustrations_present = meta.illustrations_present ∧
        D.tables_present = meta.tables_present ∧
        D.last_updated_book_at = now) := by
  constructor
  · intro nfd combining meta scan now col
    rw [upsert_book_and_scan]
    have hscanmap : ∀ c : List BookDoc,
        (upsertScanStep (generate_book_hash nfd combining meta)
            (mkScanRecord scan now) c).map (fun d => d.book_hash) =
          c.map (fun d => d.book_hash) := by
      intro c
      rw [upsertScanStep]
      by_cases hc : updateFirst
          (hasScanTok (generate_book_hash nfd combining meta)
            (mkScanRecord scan now).page_raw_number_str)
          (replaceScanTok (mkScanRecord scan now).page_raw_number_str
            (mkScanRecord scan now)) c = c
      · rw [if_pos hc]
        exact updateFirst_map
          (p := fun d : BookDoc =>
            d.book_hash = generate_book_hash nfd combining meta)
          (f := fun d => { d with scans := d.scans ++ [mkScanRecord scan now] })
          (fun d : BookDoc => d.book_hash) (fun x _ => rfl) c
      · rw [if_neg hc]
        exact updateFirst_map
          (p := hasScanTok (generate_book_hash nfd combining meta)
            (mkScanRecord scan now).page_raw_number_str)
          (f := replaceScanTok (mkScanRecord scan now).page_raw_number_str
            (mkScanRecord scan now))
          (fun d : BookDoc => d.book_hash) (fun x _ => rfl) c
    rw [hscanmap]
    rw [upsertBookStep]
    by_cases hex : ∃ d ∈ col, d.book_hash = generate_book_hash nfd combining meta
    · rw [if_pos hex, if_pos hex, List.append_nil]
      exact updateFirst_map
        (p := fun d : BookDoc =>
          d.book_hash = generate_book_hash nfd combining meta)
        (f := setBookFields meta (generate_book_hash nfd combining meta) now)
        (fun d : BookDoc => d.book_hash) (fun x hx => by
          show (setBookFields meta
            (generate_book_hash nfd combining meta) now x).book_hash = x.book_hash
          rw [hx]; rfl) col
    · rw [if_neg hex, if_neg hex, List.map_append]
      rfl
  · intro nfd combining meta scan now l1 d l2 hd hl1 hl2
    rw [upsert_book_and_scan, upsertBookStep_update hd hl1]
    obtain ⟨Sc, hsc⟩ := upsertScanStep_shape
      (generate_book_hash nfd combining meta) (mkScanRecord scan now) l1 l2
      (setBookFields meta (generate_book_hash nfd combining meta) now d)
      rfl hl1 hl2
    rw [hsc]
    refine ⟨{ setBookFields meta (generate_book_hash nfd combining meta) now d with
              scans := Sc }, rfl, ?_, ?_, ?_, ?_, ?_, ?_, ?_, ?_, ?_, ?_, ?_, ?_,
              ?_, ?_⟩ <;> simp [setBookFields, hd]

/-- C6 witness: upserting changed metadata that hashes to the stored
aggregate's identity rewrites its fields in place, with identity and
creation stamp unchanged. -/
theorem book_identity_fixed_witness :
    ∃ D, upsert_book_and_scan id (fun _ => false) exampleMeta exampleScan 5
        ([] ++ exampleDoc :: []) = [] ++ D :: [] ∧
      D.book_hash = exampleDoc.book_hash ∧ D.created_at = exampleDoc.created_at ∧
      D.title = exampleMeta.title ∧ D.authors = exampleMeta.authors ∧
      D.year = exampleMeta.year ∧ D.pub_place = exampleMeta.pub_place ∧
      D.publisher = exampleMeta.publisher ∧ D.num_pages = exampleMeta.num_pages ∧
      D.notes = exampleMeta.notes ∧ D.keywords = exampleMeta.keywords ∧
      D.maps_present = exampleMeta.maps_present ∧
      D.illustrations_present = exampleMeta.illustrations_present ∧
      D.tables_present = exampleMeta.tables_present ∧
      D.last_updated_book_at = 5 :=
  book_identity_fixed.2 id (fun _ => false) exampleMeta exampleScan 5 []
    exampleDoc [] rfl (fun x hx => absurd hx (by simp))
    (fun x hx => absurd hx (by simp))

end Appka
